import Mathlib

/-!
Verification development for the Fusion parsing-and-indexing engine
(prototype/prop indexes of a templating-language editor extension).

The TypeScript sources are shallowly embedded as executable Lean
definitions.  Text is modelled as `List Char`; JavaScript `Map`s are
modelled as insertion-ordered association lists whose `set`/`get`/`delete`
operations mirror the JavaScript semantics (set keeps the position of an
existing key, otherwise appends).  A field named `end` in the source is
rendered `endPos`, since `end` is a Lean keyword.
-/

/-- Source kind of a prop definition (`'styleguide' | 'default'`). -/
inductive PropSource where
  | styleguide
  | default
deriving DecidableEq, Repr

/-- `PropDefinition` from `src/parser/propParser.ts`. -/
structure PropDefinition where
  prototypeName : String
  propPath : List String
  start : Nat
  endPos : Nat
  source : PropSource
deriving DecidableEq, Repr

/-- `IndexedProp` from `src/index/propIndex.ts`: a `PropDefinition`
plus the owning file identity (`uri`, modelled by its string form). -/
structure IndexedProp where
  prototypeName : String
  propPath : List String
  start : Nat
  endPos : Nat
  source : PropSource
  uri : String
deriving DecidableEq, Repr

/-- `pathsEqual` from `src/index/propIndex.ts`: length check followed by
element-wise comparison, rendered structurally. -/
def pathsEqual : List String → List String → Bool
  | [], [] => true
  | a :: as, b :: bs => a == b && pathsEqual as bs
  | _, _ => false

/-- Element-wise comparison of `cand` against the front of `pp`
(the inner index loop shared by `getChildren` and, on reversed lists,
`isSuffix`); `false` as soon as `pp` is exhausted, matching the
JavaScript `undefined !== string` comparison. -/
def frontMatches : List String → List String → Bool
  | _, [] => true
  | [], _ :: _ => false
  | p :: ps, u :: us => p == u && frontMatches ps us

/-- `isSuffix` from `src/index/propIndex.ts`: `candidate` longer than
`full` is rejected, then the elements are compared from the rightmost
backward (modelled as comparing the reversed lists from the front). -/
def isSuffix (full candidate : List String) : Bool :=
  if candidate.length > full.length then false
  else frontMatches full.reverse candidate.reverse

/-- One step of the deepest-suffix fallback loop of `PropIndex.resolve`:
the accumulator holds `(bestMatch, bestLength)`. -/
def resolveStep (usagePath : List String) (acc : Option IndexedProp × Nat)
    (prop : IndexedProp) : Option IndexedProp × Nat :=
  if isSuffix usagePath prop.propPath && decide (prop.propPath.length > acc.2) then
    (some prop, prop.propPath.length)
  else acc

/-- `PropIndex.resolve` restricted to the entry list of one prototype:
first pass returns the first exact `pathsEqual` match in list order;
the second pass keeps the entry of greatest `propPath` length among
suffix matches, starting from `(undefined, 0)`. -/
def resolveList (props : List IndexedProp) (usagePath : List String) :
    Option IndexedProp :=
  match props.find? (fun prop => pathsEqual usagePath prop.propPath) with
  | some prop => some prop
  | none => (props.foldl (resolveStep usagePath) (none, 0)).1

/-- JavaScript `Set.add` on a list kept in insertion order. -/
def setAdd (s : List String) (x : String) : List String :=
  if x ∈ s then s else s ++ [x]

/-- Body of the `getChildren` loop: skip entries whose `propPath` is not
strictly longer than `usagePath` or does not start with it element-wise,
otherwise add the element at index `usagePath.length` to the set. -/
def getChildrenStep (usagePath : List String) (acc : List String)
    (prop : IndexedProp) : List String :=
  if prop.propPath.length ≤ usagePath.length then acc
  else if frontMatches prop.propPath usagePath then
    setAdd acc (prop.propPath.getD usagePath.length "")
  else acc

/-- `PropIndex.getChildren` restricted to the entry list of one
prototype; the result models `Array.from(result)` of a JavaScript `Set`,
i.e. the distinct collected elements in first-insertion order. -/
def getChildrenList (props : List IndexedProp) (usagePath : List String) :
    List String :=
  props.foldl (getChildrenStep usagePath) []

/-- Insertion-ordered association list standing for a JavaScript `Map`:
lookup by key. -/
def mapGet {α : Type} (m : List (String × α)) (k : String) : Option α :=
  (m.find? (fun kv => kv.1 == k)).map (fun kv => kv.2)

/-- JavaScript `Map.set`: replace in place when the key is present,
append otherwise. -/
def mapSet {α : Type} (m : List (String × α)) (k : String) (v : α) :
    List (String × α) :=
  if m.any (fun kv => kv.1 == k) then
    m.map (fun kv => if kv.1 == k then (k, v) else kv)
  else m ++ [(k, v)]

/-- JavaScript `Map.delete`. -/
def mapDelete {α : Type} (m : List (String × α)) (k : String) :
    List (String × α) :=
  m.filter (fun kv => !(kv.1 == k))

/-- The `byPrototype` map of `PropIndex`. -/
def PropIndexState : Type := List (String × List IndexedProp)

/-- `PropIndex.resolve`: look the prototype up in `byPrototype`, return
`undefined` on a missing or empty entry list, otherwise run the two-pass
resolution. -/
def PropIndex.resolve (idx : PropIndexState) (prototypeName : String)
    (usagePath : List String) : Option IndexedProp :=
  match mapGet idx prototypeName with
  | none => none
  | some props => if props.isEmpty then none else resolveList props usagePath

/-- `PropIndex.getChildren`: look the prototype up in `byPrototype`,
return the empty set on a missing or empty entry list, otherwise collect
the child segments. -/
def PropIndex.getChildren (idx : PropIndexState) (prototypeName : String)
    (usagePath : List String) : List String :=
  match mapGet idx prototypeName with
  | none => []
  | some props => if props.isEmpty then [] else getChildrenList props usagePath

/-- Modelled from the spec wording of `resolve` (for comparison with the
code-derived `PropIndex.resolve`): first pass takes the first entry whose
`propPath` equals the usage path in scan order; the second pass filters
the entries whose `propPath` is a suffix of the usage path, computes the
longest such `propPath`, and takes the first entry of that length. -/
def specResolveList (props : List IndexedProp) (usagePath : List String) :
    Option IndexedProp :=
  match props.find? (fun prop => usagePath == prop.propPath) with
  | some prop => some prop
  | none =>
    let matching := props.filter (fun prop => prop.propPath.isSuffixOf usagePath)
    let best := matching.foldl (fun m prop => max m prop.propPath.length) 0
    matching.find? (fun prop => prop.propPath.length == best)

/-- Spec-side `resolve` at the index level. -/
def specResolve (idx : PropIndexState) (prototypeName : String)
    (usagePath : List String) : Option IndexedProp :=
  match mapGet idx prototypeName with
  | none => none
  | some props => specResolveList props usagePath

/-- Auxiliary: `frontMatches pp u` decides `u <+: pp`. -/
theorem frontMatches_iff (pp u : List String) :
    frontMatches pp u = true ↔ u <+: pp := by
  induction pp generalizing u with
  | nil =>
    cases u with
    | nil => simp [frontMatches]
    | cons x xs => simp [frontMatches, List.prefix_nil]
  | cons p ps ih =>
    cases u with
    | nil => simp [frontMatches, List.nil_prefix]
    | cons x xs =>
      simp only [frontMatches, Bool.and_eq_true, beq_iff_eq, ih,
        List.cons_prefix_cons]
      exact and_congr_left (fun _ => eq_comm)

/-- Auxiliary: `isSuffix full cand` decides `cand <:+ full`. -/
theorem isSuffix_iff (full cand : List String) :
    isSuffix full cand = true ↔ cand <:+ full := by
  unfold isSuffix
  by_cases h : cand.length > full.length
  · simp only [h, if_true]
    constructor
    · intro hf; cases hf
    · intro hs
      exact absurd (List.IsSuffix.length_le hs) (by omega)
  · simp only [h, if_false]
    rw [frontMatches_iff, List.reverse_prefix]

/-- Auxiliary: `pathsEqual` decides list equality. -/
theorem pathsEqual_iff (a b : List String) :
    pathsEqual a b = true ↔ a = b := by
  induction a generalizing b with
  | nil => cases b <;> simp [pathsEqual]
  | cons x xs ih =>
    cases b with
    | nil => simp [pathsEqual]
    | cons y ys => simp [pathsEqual, ih]

/-- Auxiliary: two pointwise-equal predicates find the same entry. -/
theorem find?_congr_aux {α : Type} (p q : α → Bool) (l : List α)
    (h : ∀ a ∈ l, p a = q a) : l.find? p = l.find? q := by
  induction l with
  | nil => rfl
  | cons x xs ih =>
    have hx := h x (List.mem_cons_self x xs)
    by_cases hp : p x = true
    · rw [List.find?_cons_of_pos _ hp, List.find?_cons_of_pos _ (hx ▸ hp)]
    · rw [List.find?_cons_of_neg _ hp, List.find?_cons_of_neg _ (hx ▸ hp)]
      exact ih (fun a ha => h a (List.mem_cons_of_mem x ha))

/-- Running maximum of matching `propPath` lengths, seeded at `n`
(the shape of `bestLength` inside the fallback loop of `resolve`). -/
def suffixMax (u : List String) (props : List IndexedProp) (n : Nat) : Nat :=
  props.foldl
    (fun m prop => if isSuffix u prop.propPath then max m prop.propPath.length else m) n

theorem suffixMax_le (u : List String) (props : List IndexedProp) :
    ∀ n : Nat, n ≤ suffixMax u props n := by
  induction props with
  | nil => intro n; exact Nat.le_refl n
  | cons p rest ih =>
    intro n
    simp only [suffixMax, List.foldl_cons]
    by_cases h : isSuffix u p.propPath
    · simp only [h, if_true]
      exact Nat.le_trans (Nat.le_max_left _ _) (ih (max n p.propPath.length))
    · simp only [h, if_false]
      exact ih n

/-- Invariant of the fallback loop of `resolve`: the final accumulator is
the running maximum together with the first entry attaining it (or the
seed, if no entry improves on the seed length). -/
theorem foldl_resolveStep (u : List String) (props : List IndexedProp) :
    ∀ (b : Option IndexedProp) (n : Nat),
      props.foldl (resolveStep u) (b, n) =
        (if n < suffixMax u props n then
          props.find? (fun p =>
            isSuffix u p.propPath && p.propPath.length == suffixMax u props n)
         else b,
         suffixMax u props n) := by
  induction props with
  | nil => intro b n; simp [suffixMax]
  | cons p rest ih =>
    intro b n
    have hmax : suffixMax u (p :: rest) n =
        suffixMax u rest
          (if isSuffix u p.propPath then max n p.propPath.length else n) := by
      simp [suffixMax]
    by_cases hs : isSuffix u p.propPath
    · by_cases hlen : p.propPath.length > n
      · have hmaxn : max n p.propPath.length = p.propPath.length :=
          Nat.max_eq_right (Nat.le_of_lt hlen)
        have hM : suffixMax u (p :: rest) n = suffixMax u rest p.propPath.length := by
          rw [hmax, if_pos hs, hmaxn]
        have hMge : p.propPath.length ≤ suffixMax u rest p.propPath.length :=
          suffixMax_le u rest _
        have hstep : List.foldl (resolveStep u) (b, n) (p :: rest) =
            List.foldl (resolveStep u) (some p, p.propPath.length) rest := by
          simp [List.foldl_cons, resolveStep, hs, hlen]
        rw [hstep, ih, hM]
        have hngt : n < suffixMax u rest p.propPath.length := Nat.lt_of_lt_of_le hlen hMge
        rw [if_pos hngt]
        rcases Nat.lt_or_ge p.propPath.length (suffixMax u rest p.propPath.length) with hlt | hge
        · rw [if_pos hlt]
          have hpne : (isSuffix u p.propPath &&
              p.propPath.length == suffixMax u rest p.propPath.length) = false := by
            simp only [Bool.and_eq_false_iff, beq_eq_false_iff_ne]
            right; omega
          rw [List.find?_cons_of_neg _ (by simp [hpne])]
        · have heq : suffixMax u rest p.propPath.length = p.propPath.length :=
            Nat.le_antisymm hge hMge
          rw [if_neg (by omega)]
          rw [List.find?_cons_of_pos _ (by simp [hs, heq])]
      · have hle : p.propPath.length ≤ n := Nat.le_of_not_lt hlen
        have hmaxn : max n p.propPath.length = n := Nat.max_eq_left hle
        have hM : suffixMax u (p :: rest) n = suffixMax u rest n := by
          rw [hmax, if_pos hs, hmaxn]
        have hstep : List.foldl (resolveStep u) (b, n) (p :: rest) =
            List.foldl (resolveStep u) (b, n) rest := by
          simp [List.foldl_cons, resolveStep, hs, hlen]
        rw [hstep, ih, hM]
        by_cases hgt : n < suffixMax u rest n
        · rw [if_pos hgt, if_pos hgt]
          have hpne : (isSuffix u p.propPath &&
              p.propPath.length == suffixMax u rest n) = false := by
            simp only [Bool.and_eq_false_iff, beq_eq_false_iff_ne]
            right; omega
          rw [List.find?_cons_of_neg _ (by simp [hpne])]
        · rw [if_neg hgt, if_neg hgt]
    · have hM : suffixMax u (p :: rest) n = suffixMax u rest n := by
        rw [hmax, if_neg hs]
      have hstep : List.foldl (resolveStep u) (b, n) (p :: rest) =
          List.foldl (resolveStep u) (b, n) rest := by
        simp [List.foldl_cons, resolveStep, hs]
      rw [hstep, ih, hM]
      by_cases hgt : n < suffixMax u rest n
      · rw [if_pos hgt, if_pos hgt]
        rw [List.find?_cons_of_neg _ (by simp [hs])]
      · rw [if_neg hgt, if_neg hgt]

theorem filter_suffix_foldl_max (u : List String) (props : List IndexedProp) :
    ∀ n : Nat,
      (props.filter (fun p => isSuffix u p.propPath)).foldl
        (fun m prop => max m prop.propPath.length) n = suffixMax u props n := by
  induction props with
  | nil => intro n; rfl
  | cons p rest ih =>
    intro n
    by_cases hs : isSuffix u p.propPath
    · simp only [List.filter_cons, hs, if_true, List.foldl_cons, suffixMax]
      exact ih (max n p.propPath.length)
    · simp only [List.filter_cons, hs, Bool.false_eq_true, if_false, suffixMax,
        List.foldl_cons]
      exact ih n

theorem resolveList_eq_spec (props : List IndexedProp) (u : List String)
    (h : ∀ p ∈ props, p.propPath ≠ []) :
    resolveList props u = specResolveList props u := by
  unfold resolveList specResolveList
  have hexact : props.find? (fun prop => pathsEqual u prop.propPath) =
      props.find? (fun prop => u == prop.propPath) := by
    apply find?_congr_aux
    intro p _
    rw [Bool.eq_iff_iff, pathsEqual_iff, beq_iff_eq]
  rw [hexact]
  cases hfind : props.find? (fun prop => u == prop.propPath) with
  | some p => rfl
  | none =>
    simp only
    have hfilter : props.filter (fun prop => prop.propPath.isSuffixOf u) =
        props.filter (fun prop => isSuffix u prop.propPath) := by
      apply List.filter_congr
      intro p _
      rw [Bool.eq_iff_iff, List.isSuffixOf_iff_suffix, isSuffix_iff]
    rw [hfilter, filter_suffix_foldl_max]
    rw [foldl_resolveStep]
    rw [List.find?_filter]
    by_cases hM : 0 < suffixMax u props 0
    · rw [if_pos hM]
      apply find?_congr_aux
      intro p _
      rw [Bool.eq_iff_iff]
      simp
    · rw [if_neg hM]
      symm
      rw [List.find?_eq_none]
      intro p hp
      simp only [decide_eq_true_eq, not_and]
      intro hsuf
      have hne := h p hp
      have : 0 < p.propPath.length := List.length_pos.mpr hne
      simp only [beq_iff_eq]
      omega

/-- C1: for every prototype name and usage path, `PropIndex.resolve`
first returns the first stored entry whose `propPath` is element-wise
equal to the usage path (scan order = list order); only when no exact
match exists does it return, among entries whose `propPath` is a suffix
of the usage path, the entry of longest `propPath`, ties of equal longest
length broken by first occurrence in list order; it returns nothing when
no entry matches either way.  Stated as equality with `specResolve`,
which is written from the spec's words, under the data-model invariant
that stored `propPath`s are non-empty. -/
theorem resolve_matches_spec (idx : PropIndexState) (name : String)
    (u : List String)
    (h : ∀ p ∈ (mapGet idx name).getD [], p.propPath ≠ []) :
    PropIndex.resolve idx name u = specResolve idx name u := by
  unfold PropIndex.resolve specResolve
  cases hm : mapGet idx name with
  | none => rfl
  | some props =>
    rw [hm] at h
    simp only [Option.getD_some] at h
    by_cases hemp : props.isEmpty
    · have : props = [] := List.isEmpty_iff.mp hemp
      subst this
      rfl
    · simp only [hemp, if_false]
      exact resolveList_eq_spec props u h

def exampleEntryBaz : IndexedProp :=
  { prototypeName := "X", propPath := ["baz"], start := 0, endPos := 3,
    source := PropSource.styleguide, uri := "file:///a.fusion" }

def exampleEntryBarBaz : IndexedProp :=
  { prototypeName := "X", propPath := ["bar", "baz"], start := 10, endPos := 13,
    source := PropSource.styleguide, uri := "file:///a.fusion" }

def examplePropIdx : PropIndexState :=
  [("X", [exampleEntryBaz, exampleEntryBarBaz])]

/-- C1 witness: the spec's end-to-end example.  Usage path
`['props','foo','bar','baz']` with indexed definitions `['baz']` and
`['bar','baz']`: the hypothesis holds, the theorem applies, and the
resolved entry is the `['bar','baz']` one (longest suffix match). -/
theorem resolve_matches_spec_witness :
    (∀ p ∈ (mapGet examplePropIdx "X").getD [], p.propPath ≠ []) ∧
      PropIndex.resolve examplePropIdx "X" ["props", "foo", "bar", "baz"] =
        specResolve examplePropIdx "X" ["props", "foo", "bar", "baz"] ∧
      PropIndex.resolve examplePropIdx "X" ["props", "foo", "bar", "baz"] =
        some exampleEntryBarBaz :=
  ⟨by decide,
   resolve_matches_spec examplePropIdx "X" ["props", "foo", "bar", "baz"]
     (by decide),
   by decide⟩

theorem mem_setAdd (s : List String) (x y : String) :
    y ∈ setAdd s x ↔ y ∈ s ∨ y = x := by
  unfold setAdd
  by_cases hx : x ∈ s
  · simp only [hx, if_true]
    constructor
    · exact Or.inl
    · rintro (hy | rfl)
      · exact hy
      · exact hx
  · simp [hx, List.mem_append]

theorem nodup_setAdd (s : List String) (x : String) (h : s.Nodup) :
    (setAdd s x).Nodup := by
  unfold setAdd
  by_cases hx : x ∈ s
  · simpa [hx]
  · rw [if_neg hx, List.nodup_append]
    refine ⟨h, List.nodup_singleton x, ?_⟩
    intro y hy hyx
    simp only [List.mem_singleton] at hyx
    exact hx (hyx ▸ hy)

theorem mem_foldl_getChildrenStep (u : List String) (props : List IndexedProp) :
    ∀ (acc : List String) (s : String),
      s ∈ props.foldl (getChildrenStep u) acc ↔
        s ∈ acc ∨ ∃ p ∈ props, u <+: p.propPath ∧ u.length < p.propPath.length ∧
          p.propPath.getD u.length "" = s := by
  induction props with
  | nil => intro acc s; simp
  | cons p rest ih =>
    intro acc s
    simp only [List.foldl_cons]
    rw [ih]
    have hstep : s ∈ getChildrenStep u acc p ↔
        s ∈ acc ∨ (u <+: p.propPath ∧ u.length < p.propPath.length ∧
          p.propPath.getD u.length "" = s) := by
      unfold getChildrenStep
      by_cases hlen : p.propPath.length ≤ u.length
      · simp only [hlen, if_true]
        constructor
        · exact Or.inl
        · rintro (hy | ⟨_, hlt, _⟩)
          · exact hy
          · omega
      · simp only [hlen, if_false]
        by_cases hpre : frontMatches p.propPath u
        · rw [if_pos hpre, mem_setAdd]
          have hp : u <+: p.propPath := (frontMatches_iff _ _).mp hpre
          constructor
          · rintro (hy | rfl)
            · exact Or.inl hy
            · exact Or.inr ⟨hp, by omega, rfl⟩
          · rintro (hy | ⟨_, _, rfl⟩)
            · exact Or.inl hy
            · exact Or.inr rfl
        · rw [if_neg hpre]
          constructor
          · exact Or.inl
          · rintro (hy | ⟨hp, _, _⟩)
            · exact hy
            · exact absurd ((frontMatches_iff _ _).mpr hp) hpre
    rw [hstep, List.exists_mem_cons_iff]
    exact or_assoc

theorem nodup_foldl_getChildrenStep (u : List String) (props : List IndexedProp) :
    ∀ acc : List String, acc.Nodup → (props.foldl (getChildrenStep u) acc).Nodup := by
  induction props with
  | nil => intro acc h; exact h
  | cons p rest ih =>
    intro acc h
    simp only [List.foldl_cons]
    apply ih
    unfold getChildrenStep
    by_cases hlen : p.propPath.length ≤ u.length
    · simpa [hlen]
    · simp only [hlen, if_false]
      by_cases hpre : frontMatches p.propPath u
      · rw [if_pos hpre]
        exact nodup_setAdd _ _ h
      · rwa [if_neg hpre]

/-- C2: for every prototype name and usage path `p`, `getChildren`
returns exactly the de-duplicated set of the elements at index `|p|` of
the stored entries whose `propPath` is strictly longer than `p` and has
`p` as a literal element-wise prefix: membership in the result is
characterised by such an entry, and the result holds no duplicates.  In
particular the result is empty when no stored entry extends `p`
strictly. -/
theorem getChildren_spec (idx : PropIndexState) (name : String)
    (u : List String) :
    (∀ s : String,
      s ∈ PropIndex.getChildren idx name u ↔
        ∃ p ∈ (mapGet idx name).getD [], u <+: p.propPath ∧
          u.length < p.propPath.length ∧ p.propPath.getD u.length "" = s) ∧
    (PropIndex.getChildren idx name u).Nodup := by
  unfold PropIndex.getChildren
  cases hm : mapGet idx name with
  | none => simp
  | some props =>
    by_cases hemp : props.isEmpty
    · have : props = [] := List.isEmpty_iff.mp hemp
      subst this
      simp
    · have hemp2 : props.isEmpty = false := by
        cases h2 : props.isEmpty
        · rfl
        · exact absurd h2 hemp
      simp only [hemp2, Bool.false_eq_true, if_false, Option.getD_some]
      refine ⟨fun s => ?_, ?_⟩
      · rw [getChildrenList, mem_foldl_getChildrenStep]
        simp
      · exact nodup_foldl_getChildrenStep u props [] List.nodup_nil

/-- JavaScript regex `\s` character class. -/
def isWsChar (c : Char) : Bool :=
  c = ' ' || c = '\t' || c = '\n' || c = '\r' || c = '\x0b' || c = '\x0c' ||
  c = ' ' || c = ' ' ||
  (0x2000 ≤ c.toNat && c.toNat ≤ 0x200a) ||
  c = ' ' || c = ' ' || c = ' ' || c = ' ' ||
  c = '　' || c = '﻿'

/-- Character class `[A-Za-z0-9_.:-]` of the prototype-name captures. -/
def isNameChar (c : Char) : Bool :=
  c.isAlpha || c.isDigit || c = '_' || c = '.' || c = ':' || c = '-'

/-- `PrototypeDeclaration` from `src/parser/prototypeParser.ts`. -/
structure PrototypeDeclaration where
  name : String
  start : Nat
  endPos : Nat
deriving DecidableEq, Repr

/-- Deterministic rendering of one attempted match of the regex
`prototype\s*\(\s*([A-Za-z0-9_.:-]+)\s*\)` at the head of `cs`.  The
greedy `\s*` and `[...]+` pieces are forced (their classes are disjoint
from the literals that follow), so maximal-run scans are exact.  Returns
the captured name and the length of the whole match. -/
def matchProtoAt (cs : List Char) : Option (List Char × Nat) :=
  if cs.take 9 = "prototype".toList then
    let r1 := cs.drop 9
    let w1 := r1.takeWhile isWsChar
    match r1.dropWhile isWsChar with
    | '(' :: r3 =>
      let w2 := r3.takeWhile isWsChar
      let r4 := r3.dropWhile isWsChar
      let nm := r4.takeWhile isNameChar
      if nm.isEmpty then none
      else
        let r5 := r4.dropWhile isNameChar
        let w3 := r5.takeWhile isWsChar
        match r5.dropWhile isWsChar with
        | ')' :: _ =>
          some (nm, 9 + w1.length + 1 + w2.length + nm.length + w3.length + 1)
        | _ => none
    | _ => none
  else none

/-- The `while (match = prototypeRegex.exec(source))` loop: at each
position try a match; on success record the declaration and resume after
the matched text (`lastIndex`), rendered with a skip counter so that the
recursion stays structural on the remaining text. -/
def scanPrototypesAux : List Char → Nat → Nat → List PrototypeDeclaration
  | [], _, _ => []
  | _ :: rest, i, Nat.succ k => scanPrototypesAux rest (i + 1) k
  | cs@(_ :: rest), i, 0 =>
    match matchProtoAt cs with
    | some (nm, len) =>
        { name := String.mk nm, start := i, endPos := i + len } ::
          scanPrototypesAux rest (i + 1) (len - 1)
    | none => scanPrototypesAux rest (i + 1) 0

/-- `parsePrototypes` from `src/parser/prototypeParser.ts`. -/
def parsePrototypes (source : List Char) : List PrototypeDeclaration :=
  scanPrototypesAux source 0 0

/-- Shape of the text matched by one prototype declaration: the literal
`prototype`, optional whitespace, `(`, optional whitespace, the non-empty
name from the name character class, optional whitespace, `)`. -/
def protoSliceShape (slice nm : List Char) : Prop :=
  ∃ w1 w2 w3, slice = "prototype".toList ++ w1 ++ '(' :: (w2 ++ nm ++ w3 ++ [')']) ∧
    (∀ c ∈ w1, isWsChar c) ∧ (∀ c ∈ w2, isWsChar c) ∧ (∀ c ∈ w3, isWsChar c) ∧
    nm ≠ [] ∧ (∀ c ∈ nm, isNameChar c)


theorem take_eq_of_append (cs P rest : List Char) (len : Nat)
    (hcs : cs = P ++ rest) (hlen : P.length = len) : cs.take len = P := by
  subst hcs hlen
  exact List.take_left P rest

theorem matchProtoAt_sound (cs nm : List Char) (len : Nat)
    (h : matchProtoAt cs = some (nm, len)) :
    protoSliceShape (cs.take len) nm ∧ 0 < len := by
  unfold matchProtoAt at h
  split at h
  case isFalse => exact absurd h (by simp)
  case isTrue h9 =>
  simp only at h
  split at h
  case h_2 => exact absurd h (by simp)
  case h_1 r3 hr2 =>
  split at h
  case isTrue => exact absurd h (by simp)
  case isFalse hnm =>
  split at h
  case h_2 => exact absurd h (by simp)
  case h_1 r7 hr6 =>
  simp only [Option.some.injEq, Prod.mk.injEq] at h
  obtain ⟨hnmeq, hlen⟩ := h
  subst hnmeq
  subst hlen
  constructor
  · refine ⟨(cs.drop 9).takeWhile isWsChar, r3.takeWhile isWsChar,
      ((r3.dropWhile isWsChar).dropWhile isNameChar).takeWhile isWsChar, ?_, ?_, ?_, ?_, ?_, ?_⟩
    · apply take_eq_of_append _ _ r7
      · conv_lhs => rw [← List.take_append_drop 9 cs, h9,
          ← List.takeWhile_append_dropWhile isWsChar (cs.drop 9), hr2]
        conv_lhs =>
          rw [← List.takeWhile_append_dropWhile isWsChar r3,
            ← List.takeWhile_append_dropWhile isNameChar (r3.dropWhile isWsChar),
            ← List.takeWhile_append_dropWhile isWsChar
              ((r3.dropWhile isWsChar).dropWhile isNameChar), hr6]
        simp [List.append_assoc]
      · simp [List.length_append]
        omega
    · intro c hc; exact List.mem_takeWhile_imp hc
    · intro c hc; exact List.mem_takeWhile_imp hc
    · intro c hc; exact List.mem_takeWhile_imp hc
    · intro hempty
      exact hnm (by simp [hempty])
    · intro c hc; exact List.mem_takeWhile_imp hc
  · omega

theorem drop_succ_of_drop_cons {α : Type} (source rest : List α) (c : α) (i : Nat)
    (h : source.drop i = c :: rest) : source.drop (i + 1) = rest := by
  have : source.drop (i + 1) = (source.drop i).drop 1 := by
    rw [List.drop_drop]
  rw [this, h]
  rfl

theorem scanPrototypesAux_sound (source : List Char) (cs : List Char) :
    ∀ (i skip : Nat), source.drop i = cs →
      ∀ d ∈ scanPrototypesAux cs i skip,
        ∃ nm, d.name = String.mk nm ∧
          protoSliceShape ((source.take d.endPos).drop d.start) nm := by
  induction cs with
  | nil =>
    intro i skip _ d hd
    simp [scanPrototypesAux] at hd
  | cons c rest ih =>
    intro i skip hdrop d hd
    have hrest : source.drop (i + 1) = rest := drop_succ_of_drop_cons source rest c i hdrop
    cases skip with
    | succ k =>
      exact ih (i + 1) k hrest d hd
    | zero =>
      cases hm : matchProtoAt (c :: rest) with
      | none =>
        rw [scanPrototypesAux, hm] at hd
        exact ih (i + 1) 0 hrest d hd
      | some r =>
        obtain ⟨nm, len⟩ := r
        rw [scanPrototypesAux, hm] at hd
        rcases List.mem_cons.mp hd with hhead | htail
        · subst hhead
          refine ⟨nm, rfl, ?_⟩
          obtain ⟨hshape, hpos⟩ := matchProtoAt_sound (c :: rest) nm len hm
          have hslice : (source.take (i + len)).drop i = (c :: rest).take len := by
            rw [List.drop_take]
            have : i + len - i = len := by omega
            rw [this, hdrop]
          simpa [hslice] using hshape
        · exact ih (i + 1) (len - 1) hrest d htail

/-- C9: for all source text, every `PrototypeDeclaration` reported by the
prototype declaration scan has offsets such that slicing the source over
`[start, endPos)` yields text matching `prototype ( <name> )` — the
literal keyword, optional whitespace, parentheses, and a non-empty name
from the class `[A-Za-z0-9_.:-]` equal to the reported name. -/
theorem parsePrototypes_slice_sound (source : List Char)
    (d : PrototypeDeclaration) (hd : d ∈ parsePrototypes source) :
    ∃ nm, d.name = String.mk nm ∧
      protoSliceShape ((source.take d.endPos).drop d.start) nm :=
  scanPrototypesAux_sound source source 0 0 rfl d hd

/-- C9 witness: the single declaration scanned from
`prototype(Foo:Bar)` satisfies the slice property. -/
theorem parsePrototypes_slice_sound_witness :
    ({ name := "Foo:Bar", start := 0, endPos := 18 } : PrototypeDeclaration) ∈
        parsePrototypes "prototype(Foo:Bar)".toList ∧
      ∃ nm, ({ name := "Foo:Bar", start := 0, endPos := 18 } :
          PrototypeDeclaration).name = String.mk nm ∧
        protoSliceShape
          ((("prototype(Foo:Bar)".toList).take 18).drop 0) nm :=
  ⟨by decide,
   parsePrototypes_slice_sound "prototype(Foo:Bar)".toList
     { name := "Foo:Bar", start := 0, endPos := 18 } (by decide)⟩

/-- Split on `\r?\n` (the `/\r?\n/` separators of the sources: a lone
`\r` is not a separator). -/
def splitRN : List Char → List (List Char)
  | [] => [[]]
  | '\r' :: '\n' :: rest => [] :: splitRN rest
  | '\n' :: rest => [] :: splitRN rest
  | c :: rest =>
    match splitRN rest with
    | [] => [[c]]
    | l :: ls => (c :: l) :: ls

/-- `offsetToPosition` from `src/index/prototypeIndex.ts`: split the
prefix before `offset` on `\r?\n`; the position is
`(lineCount - 1, length of last line)`. -/
def offsetToPosition (source : List Char) (offset : Nat) : Nat × Nat :=
  let lines := splitRN (source.take offset)
  (lines.length - 1, ((lines.getLast?).getD []).length)

/-- `IndexedPrototype` from `src/index/prototypeIndex.ts`; a
`vscode.Range` is a pair of `(line, character)` positions. -/
structure IndexedPrototype where
  name : String
  uri : String
  range : (Nat × Nat) × (Nat × Nat)
deriving DecidableEq, Repr

/-- The two maps of `PrototypeIndex`: the global `prototypes` map
(name to indexed prototype) and the per-file `filePrototypes` map
(uri to contributed names). -/
structure PrototypeIndexState where
  prototypes : List (String × IndexedPrototype)
  filePrototypes : List (String × List String)
deriving DecidableEq, Repr

/-- `PrototypeIndex.clear`: clears only the global `prototypes` map;
`filePrototypes` is left untouched. -/
def PrototypeIndex.clear (st : PrototypeIndexState) : PrototypeIndexState :=
  { st with prototypes := [] }

/-- `PrototypeIndex.indexDocument`: parse the declarations, insert each
into the global map (last write wins), and record the name list for the
file. -/
def PrototypeIndex.indexDocument (st : PrototypeIndexState) (uriKey : String)
    (source : List Char) : PrototypeIndexState :=
  let declarations := parsePrototypes source
  { prototypes :=
      declarations.foldl
        (fun m decl =>
          mapSet m decl.name
            { name := decl.name, uri := uriKey,
              range := (offsetToPosition source decl.start,
                        offsetToPosition source decl.endPos) })
        st.prototypes,
    filePrototypes :=
      mapSet st.filePrototypes uriKey (declarations.map (fun d => d.name)) }

/-- `PrototypeIndex.removeByUri`: look up the names this file recorded;
delete each of those names from the global map, then drop the file's
record. -/
def PrototypeIndex.removeByUri (st : PrototypeIndexState) (uriKey : String) :
    PrototypeIndexState :=
  match mapGet st.filePrototypes uriKey with
  | none => st
  | some names =>
    { prototypes := names.foldl (fun m n => mapDelete m n) st.prototypes,
      filePrototypes := mapDelete st.filePrototypes uriKey }

/-- `PrototypeIndex.get`. -/
def PrototypeIndex.get (st : PrototypeIndexState) (name : String) :
    Option IndexedPrototype :=
  mapGet st.prototypes name

/-- `PrototypeIndex.getAllNames`. -/
def PrototypeIndex.getAllNames (st : PrototypeIndexState) : List String :=
  st.prototypes.map (fun kv => kv.1)

/-- `PrototypeIndex.getPrototypesFromDocument`. -/
def PrototypeIndex.getPrototypesFromDocument (st : PrototypeIndexState)
    (uriKey : String) : List String :=
  (mapGet st.filePrototypes uriKey).getD []

theorem mapGet_mapDelete_self {α : Type} (m : List (String × α)) (k : String) :
    mapGet (mapDelete m k) k = none := by
  unfold mapGet mapDelete
  rw [List.find?_filter, List.find?_eq_none.mpr]
  · rfl
  · intro kv _
    simp

theorem mapGet_mapDelete_ne {α : Type} (m : List (String × α)) (k k' : String)
    (h : k' ≠ k) : mapGet (mapDelete m k) k' = mapGet m k' := by
  unfold mapGet mapDelete
  rw [List.find?_filter]
  have hcongr := find?_congr_aux
    (fun (a : String × α) => decide ((!a.1 == k) = true ∧ (a.1 == k') = true))
    (fun (a : String × α) => a.1 == k') m ?_
  · rw [hcongr]
  · intro a _
    rw [Bool.eq_iff_iff]
    simp only [decide_eq_true_eq, Bool.not_eq_true', beq_iff_eq, beq_eq_false_iff_ne]
    exact ⟨fun x => x.2, fun x => ⟨by rw [x]; exact h, x⟩⟩

theorem mapGet_foldl_mapDelete {α : Type} (names : List String) :
    ∀ (m : List (String × α)) (n : String),
      mapGet (names.foldl (fun acc x => mapDelete acc x) m) n =
        if n ∈ names then none else mapGet m n := by
  induction names with
  | nil => intro m n; simp
  | cons x xs ih =>
    intro m n
    simp only [List.foldl_cons]
    rw [ih]
    by_cases hmem : n ∈ xs
    · simp [hmem]
    · rw [if_neg hmem]
      by_cases hx : n = x
      · subst hx
        simp [mapGet_mapDelete_self]
      · rw [mapGet_mapDelete_ne _ _ _ hx]
        simp [hx, hmem]

/-- C8 counterexample: files `a` and `b` both declare `prototype(N)`;
after `b` is indexed the global entry for `N` is owned by `b`, yet
`removeByUri a` deletes it, so `get "N"` changes from `b`'s entry to
nothing. -/
theorem removeByUri_cross_file_cex :
    (PrototypeIndex.get
        (PrototypeIndex.indexDocument
          (PrototypeIndex.indexDocument
            { prototypes := [], filePrototypes := [] }
            "file:///a.fusion" "prototype(N)".toList)
          "file:///b.fusion" "prototype(N)".toList)
        "N").map (fun e => e.uri) = some "file:///b.fusion" ∧
    PrototypeIndex.get
        (PrototypeIndex.removeByUri
          (PrototypeIndex.indexDocument
            (PrototypeIndex.indexDocument
              { prototypes := [], filePrototypes := [] }
              "file:///a.fusion" "prototype(N)".toList)
            "file:///b.fusion" "prototype(N)".toList)
          "file:///a.fusion")
        "N" = none := by
  constructor
  · rfl
  · rfl

/-- C8 amended: `removeByUri f` deletes from the global map every name
recorded for `f`, even when the current entry for such a name is owned
by a different file; entries under names `f` never recorded are left
unchanged. -/
theorem removeByUri_amended (st : PrototypeIndexState) (f : String) :
    (∀ n ∈ PrototypeIndex.getPrototypesFromDocument st f,
      PrototypeIndex.get (PrototypeIndex.removeByUri st f) n = none) ∧
    (∀ n, n ∉ PrototypeIndex.getPrototypesFromDocument st f →
      PrototypeIndex.get (PrototypeIndex.removeByUri st f) n =
        PrototypeIndex.get st n) := by
  unfold PrototypeIndex.removeByUri PrototypeIndex.getPrototypesFromDocument
    PrototypeIndex.get
  cases hm : mapGet st.filePrototypes f with
  | none => simp
  | some names =>
    simp only [Option.getD_some]
    constructor
    · intro n hn
      rw [mapGet_foldl_mapDelete, if_pos hn]
    · intro n hn
      rw [mapGet_foldl_mapDelete, if_neg hn]

/-- C8 amended witness: in the two-file scenario of the counterexample,
`removeByUri a` empties the recorded name `N` and leaves an unrecorded
name unchanged. -/
theorem removeByUri_amended_witness :
    ("N" ∈ PrototypeIndex.getPrototypesFromDocument
        (PrototypeIndex.indexDocument
          (PrototypeIndex.indexDocument
            { prototypes := [], filePrototypes := [] }
            "file:///a.fusion" "prototype(N)".toList)
          "file:///b.fusion" "prototype(N)".toList)
        "file:///a.fusion") ∧
    PrototypeIndex.get
      (PrototypeIndex.removeByUri
        (PrototypeIndex.indexDocument
          (PrototypeIndex.indexDocument
            { prototypes := [], filePrototypes := [] }
            "file:///a.fusion" "prototype(N)".toList)
          "file:///b.fusion" "prototype(N)".toList)
        "file:///a.fusion")
      "N" = none :=
  ⟨by decide,
   (removeByUri_amended
     (PrototypeIndex.indexDocument
       (PrototypeIndex.indexDocument
         { prototypes := [], filePrototypes := [] }
         "file:///a.fusion" "prototype(N)".toList)
       "file:///b.fusion" "prototype(N)".toList)
     "file:///a.fusion").1 "N" (by decide)⟩

/-- C10: `clear()` resets the global name-to-location map (every `get`
returns nothing and `getAllNames` is empty) while leaving the per-file
name map untouched (`getPrototypesFromDocument` is unchanged for every
file). -/
theorem clear_resets_global_keeps_per_file (st : PrototypeIndexState) :
    (∀ name, PrototypeIndex.get (PrototypeIndex.clear st) name = none) ∧
    PrototypeIndex.getAllNames (PrototypeIndex.clear st) = [] ∧
    (∀ uriKey,
      PrototypeIndex.getPrototypesFromDocument (PrototypeIndex.clear st) uriKey =
        PrototypeIndex.getPrototypesFromDocument st uriKey) :=
  ⟨fun _ => rfl, rfl, fun _ => rfl⟩

/-- `StyleguideWarning` from `src/parser/propParser.ts`. -/
structure StyleguideWarning where
  message : String
  line : Nat
  column : Nat
deriving DecidableEq, Repr

mutual
/-- `StyleguideNode`: a position plus the (insertion-ordered) children
record.  The JavaScript `children?: Record<string, StyleguideNode>`
(possibly absent, possibly empty) is modelled by `SChildren`, conflating
`undefined` with `{}` — the two are observationally equal in this code
(`node.children` is only iterated or key-tested). -/
inductive SNode : Type where
  | mk : (Nat × Nat) → SChildren → SNode

/-- Insertion-ordered children record of a `StyleguideNode`. -/
inductive SChildren : Type where
  | nil : SChildren
  | cons : String → SNode → SChildren → SChildren
end

/-- Position `(line, column)` of a node. -/
def SNode.position : SNode → Nat × Nat
  | SNode.mk p _ => p

/-- Children record of a node. -/
def SNode.children : SNode → SChildren
  | SNode.mk _ c => c

/-- Test `current.children[key]` truthiness. -/
def SChildren.hasKey : SChildren → String → Bool
  | SChildren.nil, _ => false
  | SChildren.cons k _ rest, key => k == key || SChildren.hasKey rest key

/-- Lookup `children[key]`. -/
def SChildren.lookup : SChildren → String → Option SNode
  | SChildren.nil, _ => none
  | SChildren.cons k c rest, key =>
    if k == key then some c else SChildren.lookup rest key

/-- `children[key] = node` on a fresh key: appends in insertion order. -/
def SChildren.append : SChildren → String → SNode → SChildren
  | SChildren.nil, key, node => SChildren.cons key node SChildren.nil
  | SChildren.cons k c rest, key, node =>
    SChildren.cons k c (SChildren.append rest key node)

/-- Replace the subtree stored under an existing key. -/
def SChildren.replace : SChildren → String → SNode → SChildren
  | SChildren.nil, _, _ => SChildren.nil
  | SChildren.cons k c rest, key, node =>
    if k == key then SChildren.cons k node rest
    else SChildren.cons k c (SChildren.replace rest key node)

/-- Keys of a children record, in insertion order. -/
def SChildren.keys : SChildren → List String
  | SChildren.nil => []
  | SChildren.cons k _ rest => k :: SChildren.keys rest

/-- Navigate a node by a key path (the pure-model counterpart of the
node references held on the parser's stack). -/
def nodeAt : List String → SNode → Option SNode
  | [], n => some n
  | k :: ks, n =>
    match SChildren.lookup n.children k with
    | some c => nodeAt ks c
    | none => none

/-- `current.children[key]` test where `current` is the node at `path`. -/
def hasChildAt (root : SNode) (path : List String) (key : String) : Bool :=
  match nodeAt path root with
  | some n => SChildren.hasKey n.children key
  | none => false

/-- `current.children[key] = node` where `current` is the node at
`path`; outside a valid path this is the identity (the parser's stack
invariant keeps paths valid). -/
def addChild : List String → SNode → String → SNode → SNode
  | [], n, key, child => SNode.mk n.position (SChildren.append n.children key child)
  | k :: ks, n, key, child =>
    match SChildren.lookup n.children k with
    | some c =>
      SNode.mk n.position (SChildren.replace n.children k (addChild ks c key child))
    | none => n

/-- `StyleguidePropsTree` from `src/parser/propParser.ts`. -/
structure StyleguidePropsTree where
  props : SNode
  warnings : List StyleguideWarning

/-- Split on `'\n'` only (`source.split('\n')` of the styleguide
parser; carriage returns are kept in the line). -/
def splitNL : List Char → List (List Char)
  | [] => [[]]
  | '\n' :: rest => [] :: splitNL rest
  | c :: rest =>
    match splitNL rest with
    | [] => [[c]]
    | l :: ls => (c :: l) :: ls

/-- The EEL-depth loop at the top of the per-line handler: `${` opens
(skipping both characters), `}` closes while the depth is positive. -/
def eelUpdate : List Char → Nat → Nat
  | [], d => d
  | '$' :: '{' :: rest, d => eelUpdate rest (d + 1)
  | '}' :: rest, d => eelUpdate rest (if d > 0 then d - 1 else d)
  | _ :: rest, d => eelUpdate rest d

/-- Substring search: does `needle` occur contiguously in the list? -/
def hasInfix (needle : List Char) : List Char → Bool
  | [] => needle.isEmpty
  | c :: rest => needle.isPrefixOf (c :: rest) || hasInfix needle rest

/-- `line.includes('@styleguide')`. -/
def includesStyleguide (line : List Char) : Bool :=
  hasInfix "@styleguide".toList line

/-- Character class `[^\s={]` of the key captures. -/
def isKeyChar (c : Char) : Bool :=
  !(isWsChar c) && !(c == '=') && !(c == '{')

/-- Regex `/^\s*@/` (directive lines). -/
def isDirectiveLine (line : List Char) : Bool :=
  match line.dropWhile isWsChar with
  | '@' :: _ => true
  | _ => false

/-- Regex `/^\s*\}/` (bare closing brace lines). -/
def isCloseLine (line : List Char) : Bool :=
  match line.dropWhile isWsChar with
  | '}' :: _ => true
  | _ => false

/-- Deterministic rendering of `/^(\s*)props\s*\{/`: leading whitespace,
the literal `props`, optional whitespace, `{`.  Returns the indentation
length (`match[1].length`). -/
def matchPropsOpen (line : List Char) : Option Nat :=
  let w1 := line.takeWhile isWsChar
  let r1 := line.dropWhile isWsChar
  if r1.take 5 = "props".toList then
    match (r1.drop 5).dropWhile isWsChar with
    | '{' :: _ => some w1.length
    | _ => none
  else none

/-- Deterministic rendering of the open-block regex
`/^(\s*)([^\s={]+)\s*(?:=\s*[^{]+)?\s*\{/`.  The leading `\s*` and the
key run are forced greedy; after the key and optional whitespace the
match succeeds when the next character is `{`, or when it is `=` and the
rest holds a `{` that is not its very first character (the backtracking
of `=\s*[^{]+\s*\{` succeeds exactly then).  Returns
`(match[1].length, key)`. -/
def matchOpen (line : List Char) : Option (Nat × List Char) :=
  let w1 := line.takeWhile isWsChar
  let r1 := line.dropWhile isWsChar
  let key := r1.takeWhile isKeyChar
  if key.isEmpty then none
  else
    match (r1.dropWhile isKeyChar).dropWhile isWsChar with
    | '{' :: _ => some (w1.length, key)
    | '=' :: s =>
      match s with
      | [] => none
      | c :: s2 =>
        if c == '{' then none
        else if s2.contains '{' then some (w1.length, key) else none
    | _ => none

/-- Deterministic rendering of the leaf regex
`/^(\s*)([^\s={]+)\s*=\s*(?!.*\{)/`: key, `=`, and no `{` anywhere after
the `=` (the negative lookahead). -/
def matchLeaf (line : List Char) : Option (Nat × List Char) :=
  let w1 := line.takeWhile isWsChar
  let r1 := line.dropWhile isWsChar
  let key := r1.takeWhile isKeyChar
  if key.isEmpty then none
  else
    match (r1.dropWhile isKeyChar).dropWhile isWsChar with
    | '=' :: s => if s.contains '{' then none else some (w1.length, key)
    | _ => none

/-- Warning text for a duplicate key. -/
def dupMsg (key : String) : String :=
  "Duplicate prop \"" ++ key ++ "\" defined at the same level"

/-- Parser state of `parseStyleguidePropsTree`: the flags, the root
node, the stack (as the key path of the current node, `none` once the
stack has been popped past the root), the EEL depth, and the collected
warnings. -/
structure PTState where
  inStyleguide : Bool
  inProps : Bool
  root : SNode
  curPath : Option (List String)
  eelDepth : Nat
  warnings : List StyleguideWarning

/-- Initial parser state. -/
def initPT : PTState :=
  { inStyleguide := false, inProps := false,
    root := SNode.mk (0, 0) SChildren.nil,
    curPath := none, eelDepth := 0, warnings := [] }

/-- One iteration of the `lines.forEach` body of
`parseStyleguidePropsTree`. -/
def ptStep (s : PTState) (line : List Char) (lineNumber : Nat) : PTState :=
  let s1 := { s with eelDepth := eelUpdate line s.eelDepth }
  if !s1.inStyleguide && includesStyleguide line then
    { s1 with inStyleguide := true }
  else if s1.inStyleguide && !s1.inProps then
    match matchPropsOpen line with
    | some indent =>
      { s1 with
        inProps := true,
        root := SNode.mk (lineNumber, indent + 1) s1.root.children,
        curPath := some [] }
    | none => s1
  else if !s1.inProps then s1
  else match s1.curPath with
  | none => s1
  | some path =>
    if s1.eelDepth == 0 && isCloseLine line then
      { s1 with curPath :=
          (match path with
           | [] => none
           | _ :: _ => some path.dropLast) }
    else
      match (if isDirectiveLine line then none else matchOpen line) with
      | some (indent, key) =>
        let keyS := String.mk key
        if hasChildAt s1.root path keyS then
          { s1 with warnings := s1.warnings ++
              [{ message := dupMsg keyS, line := lineNumber, column := indent + 1 }] }
        else
          { s1 with
            root :=
              addChild path s1.root keyS
                (SNode.mk (lineNumber, indent + 1) SChildren.nil),
            curPath := some (path ++ [keyS]) }
      | none =>
        match (if isDirectiveLine line then none else matchLeaf line) with
        | some (indent, key) =>
          let keyS := String.mk key
          if hasChildAt s1.root path keyS then
            { s1 with warnings := s1.warnings ++
                [{ message := dupMsg keyS, line := lineNumber, column := indent + 1 }] }
          else
            { s1 with
              root :=
                addChild path s1.root keyS
                  (SNode.mk (lineNumber, indent + 1) SChildren.nil) }
        | none => s1

/-- Fold `ptStep` over the lines, numbering from 1. -/
def parseLines : List (List Char) → Nat → PTState → PTState
  | [], _, s => s
  | line :: rest, idx, s => parseLines rest (idx + 1) (ptStep s line (idx + 1))

/-- `parseStyleguidePropsTree` from `src/parser/propParser.ts`. -/
def parseStyleguidePropsTree (source : List Char) : StyleguidePropsTree :=
  let final := parseLines (splitNL source) 0 initPT
  { props := final.root, warnings := final.warnings }

/-- Line-start offsets of `document.split(/\r?\n/)`, each accumulated
line contributing `length + 1` (the flattener's `lineOffsets` table,
including its off-by-one on `\r\n` separators). -/
def offsetsAux : List (List Char) → Nat → List Nat
  | [], _ => []
  | l :: ls, acc => acc :: offsetsAux ls (acc + l.length + 1)

/-- The precomputed `lineOffsets` of `flattenStyleguideTree`. -/
def lineOffsets (document : List Char) : List Nat :=
  offsetsAux (splitRN document) 0

mutual
/-- The recursive `walk` of `flattenStyleguideTree`: nodes at depth ≥ 1
emit a `PropDefinition` whose offsets convert the node's
`(line, column)` back through the line-offset table, then the children
are walked in insertion order. -/
def flattenNode (prototypeName : String) (offs : List Nat) (bodyOffset : Nat) :
    SNode → List String → List PropDefinition
  | SNode.mk pos cs, path =>
    (match path.getLast? with
     | some lastKey =>
       let offset := bodyOffset + offs.getD (pos.1 - 1) 0 + (pos.2 - 1)
       [{ prototypeName := prototypeName, propPath := path, start := offset,
          endPos := offset + lastKey.length, source := PropSource.styleguide }]
     | none => []) ++ flattenChildren prototypeName offs bodyOffset cs path

/-- Walk of one children record, in insertion order. -/
def flattenChildren (prototypeName : String) (offs : List Nat) (bodyOffset : Nat) :
    SChildren → List String → List PropDefinition
  | SChildren.nil, _ => []
  | SChildren.cons k c rest, path =>
    flattenNode prototypeName offs bodyOffset c (path ++ [k]) ++
      flattenChildren prototypeName offs bodyOffset rest path
end

/-- `flattenStyleguideTree` from `src/parser/propParser.ts`. -/
def flattenStyleguideTree (tree : StyleguidePropsTree) (prototypeName : String)
    (document : List Char) (bodyOffset : Nat) : List PropDefinition :=
  flattenNode prototypeName (lineOffsets document) bodyOffset tree.props []

/-- Character class `[A-Za-z0-9_.]` of the dotted-path key tail. -/
def isDefaultKeyChar (c : Char) : Bool :=
  c.isAlpha || c.isDigit || c == '_' || c == '.'

/-- `key.split('.')` of the default-prop scanner. -/
def splitDot (cs : List Char) : List String :=
  (cs.splitOn '.').map (fun l => String.mk l)

/-- Deterministic rendering of
`/^[ \t]*([A-Za-z_][A-Za-z0-9_.]*|[0-9]+)\s*=/`: space-or-tab indent,
a letter-or-underscore-led dotted identifier or a digit run, optional
whitespace, `=`.  Returns the indent length, the captured key, and the
length of `match[0]`. -/
def matchDefaultKey (line : List Char) : Option (Nat × List Char × Nat) :=
  let ind := line.takeWhile (fun c => c == ' ' || c == '\t')
  let r := line.dropWhile (fun c => c == ' ' || c == '\t')
  match r with
  | [] => none
  | c :: _ =>
    let key :=
      if c.isAlpha || c == '_' then r.takeWhile isDefaultKeyChar
      else if c.isDigit then r.takeWhile Char.isDigit
      else []
    if key.isEmpty then none
    else
      let r2 := r.drop key.length
      let ws2 := r2.takeWhile isWsChar
      match r2.dropWhile isWsChar with
      | '=' :: _ =>
        some (ind.length, key, ind.length + key.length + ws2.length + 1)
      | _ => none

/-- Net brace delta of one line (`{` opens, `}` closes), as in the
depth-update loop of `parseDefaultProps`. -/
def lineBraceDelta (line : List Char) : Int :=
  line.foldl
    (fun d c => if c == '{' then d + 1 else if c == '}' then d - 1 else d) 0

/-- The per-line loop of `parseDefaultProps`: a matching line at depth 0
records one default definition with `start` at the key and
`endPos = start + match[0].length`; the depth is updated after the
match test. -/
def defaultLoop (prototypeName : String) (bodyOffset : Nat) :
    List (List Char) → Int → Nat → List PropDefinition
  | [], _, _ => []
  | line :: rest, depth, cur =>
    (match matchDefaultKey line with
     | some (ind, key, mlen) =>
       if depth == 0 then
         [{ prototypeName := prototypeName, propPath := splitDot key,
            start := bodyOffset + cur + ind,
            endPos := bodyOffset + cur + ind + mlen,
            source := PropSource.default }]
       else []
     | none => []) ++
      defaultLoop prototypeName bodyOffset rest (depth + lineBraceDelta line)
        (cur + line.length + 1)

/-- `parseDefaultProps` from `src/parser/propParser.ts`. -/
def parseDefaultProps (body : List Char) (prototypeName : String)
    (bodyOffset : Nat) : List PropDefinition :=
  defaultLoop prototypeName bodyOffset (splitRN body) 0 0

/-- `PrototypeBlock` from `src/parser/propParser.ts`. -/
structure PrototypeBlock where
  name : String
  bodyStart : Nat
  bodyEnd : Nat
deriving DecidableEq, Repr

/-- The scan loop of `findMatchingBrace`: `{` increments, `}` decrements
and returns the index when the depth reaches zero (JavaScript numbers,
hence `Int`). -/
def fmbGo : List Char → Nat → Int → Option Nat
  | [], _, _ => none
  | c :: rest, i, depth =>
    if c == '{' then fmbGo rest (i + 1) (depth + 1)
    else if c == '}' then
      if depth - 1 == 0 then some i else fmbGo rest (i + 1) (depth - 1)
    else fmbGo rest (i + 1) depth

/-- `findMatchingBrace` from `src/parser/propParser.ts`. -/
def findMatchingBrace (source : List Char) (openBraceIndex : Nat) : Option Nat :=
  fmbGo (source.drop openBraceIndex) openBraceIndex 0

/-- Deterministic rendering of one attempted match of the block regex
`prototype\s*\(\s*([A-Za-z0-9_.:-]+)\s*\)(?:\s*<[^{]*?)?\s*\{` at the
head of `cs`: after the closing parenthesis and optional whitespace,
either a `{` directly, or a `<` followed (lazily) by anything up to the
first `{`.  Returns the captured name and the length of `match[0]`
(which ends at the opening brace inclusive). -/
def matchBlockAt (cs : List Char) : Option (List Char × Nat) :=
  if cs.take 9 = "prototype".toList then
    let r1 := cs.drop 9
    let w1 := r1.takeWhile isWsChar
    match r1.dropWhile isWsChar with
    | '(' :: r3 =>
      let w2 := r3.takeWhile isWsChar
      let r4 := r3.dropWhile isWsChar
      let nm := r4.takeWhile isNameChar
      if nm.isEmpty then none
      else
        let r5 := r4.dropWhile isNameChar
        let w3 := r5.takeWhile isWsChar
        match r5.dropWhile isWsChar with
        | ')' :: r7 =>
          let base := 9 + w1.length + 1 + w2.length + nm.length + w3.length + 1
          let w4 := r7.takeWhile isWsChar
          match r7.dropWhile isWsChar with
          | '{' :: _ => some (nm, base + w4.length + 1)
          | '<' :: u =>
            match u.findIdx? (fun c => c == '{') with
            | some j => some (nm, base + w4.length + 1 + j + 1)
            | none => none
          | _ => none
        | _ => none
    | _ => none
  else none

/-- The `while (match = protoRegex.exec(source))` loop of
`parsePrototypeBlocks`: on a match, find the matching closing brace from
the opening brace (dropping the block when none exists) and resume the
scan right after the opening brace (`lastIndex`). -/
def scanBlocksAux (source : List Char) : List Char → Nat → Nat → List PrototypeBlock
  | [], _, _ => []
  | _ :: rest, i, Nat.succ k => scanBlocksAux source rest (i + 1) k
  | cs@(_ :: rest), i, 0 =>
    match matchBlockAt cs with
    | some (nm, len) =>
      (match findMatchingBrace source (i + len - 1) with
       | some bodyEnd =>
         [{ name := String.mk nm, bodyStart := i + len, bodyEnd := bodyEnd }]
       | none => []) ++ scanBlocksAux source rest (i + 1) (len - 1)
    | none => scanBlocksAux source rest (i + 1) 0

/-- `parsePrototypeBlocks` from `src/parser/propParser.ts`. -/
def parsePrototypeBlocks (source : List Char) : List PrototypeBlock :=
  scanBlocksAux source source 0 0

/-- `ParsedPropResult` from `src/parser/propParser.ts`. -/
structure ParsedPropResult where
  props : List PropDefinition
  warnings : List StyleguideWarning
deriving DecidableEq, Repr

/-- Full dotted path (`propPath.join('.')`). -/
def joinDot (path : List String) : String :=
  String.intercalate "." path

/-- Per-block body of `parsePropDefinitions`: styleguide props first,
then the default props whose dotted path is not among the styleguide
dotted paths (`seen`). -/
def blockProps (source : List Char) (proto : PrototypeBlock) :
    List PropDefinition × List StyleguideWarning :=
  let body := (source.take proto.bodyEnd).drop proto.bodyStart
  let styleguideTree := parseStyleguidePropsTree body
  let styleguideProps :=
    flattenStyleguideTree styleguideTree proto.name body proto.bodyStart
  let seen := styleguideProps.map (fun p => joinDot p.propPath)
  let defaults :=
    (parseDefaultProps body proto.name proto.bodyStart).filter
      (fun p => !(seen.contains (joinDot p.propPath)))
  (styleguideProps ++ defaults, styleguideTree.warnings)

/-- `parsePropDefinitions` from `src/parser/propParser.ts`. -/
def parsePropDefinitions (source : List Char) : ParsedPropResult :=
  (parsePrototypeBlocks source).foldl
    (fun acc proto =>
      { props := acc.props ++ (blockProps source proto).1,
        warnings := acc.warnings ++ (blockProps source proto).2 })
    { props := [], warnings := [] }

/-- The spec's duplicate-key end-to-end source, written on one line
exactly as in the spec sentence. -/
def exampleDupOneLine : List Char :=
  ("prototype(Foo:Bar) \x7b @styleguide \x7b props \x7b a \x7b b = 1 \x7d" ++
   " a \x7b b = 2 \x7d \x7d \x7d \x7d").toList

/-- The spec's duplicate-key source in a conventional multi-line
rendering. -/
def exampleDupMultiLine : List Char :=
  ("prototype(Foo:Bar) \x7b\n  @styleguide \x7b\n    props \x7b\n" ++
   "      a \x7b\n        b = 1\n      \x7d\n      a \x7b\n        b = 2\n" ++
   "      \x7d\n    \x7d\n  \x7d\n\x7d").toList

/-- C6 counterexample: on the spec's one-line source the prop pipeline
produces no prop entries at all and no warnings — not the claimed two
`['a','b']` entries and one duplicate warning.  (The single line holds
`@styleguide`, so the styleguide scanner consumes it whole while
entering the styleguide block, and the default scanner rejects the line
since it starts with `@`.) -/
theorem dup_example_one_line_cex :
    (parsePropDefinitions exampleDupOneLine).props = [] ∧
    (parsePropDefinitions exampleDupOneLine).warnings = [] ∧
    ¬ (((parsePropDefinitions exampleDupOneLine).props.filter
          (fun p => p.propPath == ["a", "b"])).length = 2 ∧
        (parsePropDefinitions exampleDupOneLine).warnings.length = 1) :=
  ⟨rfl, rfl, by decide⟩

/-- C6 amended: the one-line source yields no props and no warnings;
in a multi-line rendering the duplicate `a` block is suppressed at tree
build, so the pipeline yields `['a']`, `['a','b']` and `['b']` once each
(the `b = 2` leaf attaches to the props root because the duplicate `a`
opens no stack frame), all styleguide-sourced, plus exactly one
duplicate warning at the second `a {` (line 7, column 7 of the
prototype body). -/
theorem dup_example_amended :
    parsePropDefinitions exampleDupOneLine = { props := [], warnings := [] } ∧
    (parsePropDefinitions exampleDupMultiLine).props.map
        (fun p => (p.prototypeName, p.propPath, p.source)) =
      [("Foo:Bar", ["a"], PropSource.styleguide),
       ("Foo:Bar", ["a", "b"], PropSource.styleguide),
       ("Foo:Bar", ["b"], PropSource.styleguide)] ∧
    (parsePropDefinitions exampleDupMultiLine).warnings =
      [{ message := "Duplicate prop \"a\" defined at the same level",
         line := 7, column := 7 }] :=
  ⟨rfl, rfl, rfl⟩

/-- The spec's default-prop end-to-end source. -/
def exampleDefaultX : List Char :=
  "prototype(X) \x7b foo.bar = null \x7d".toList

/-- C7 counterexample: the scanner does produce exactly one entry
`['foo','bar']` with `source = default`, but its offsets do not span
exactly the matched key text: `start = 15` is the key start while
`endPos = 25 = start + match[0].length` extends through the whitespace
and the `=` sign (`"foo.bar"` has length 7, not 10). -/
theorem default_offsets_cex :
    (parsePropDefinitions exampleDefaultX).props =
      [{ prototypeName := "X", propPath := ["foo", "bar"], start := 15,
         endPos := 25, source := PropSource.default }] ∧
    ¬ (∀ p ∈ (parsePropDefinitions exampleDefaultX).props,
        p.endPos = p.start + (joinDot p.propPath).length) :=
  ⟨rfl, by decide⟩

/-- Modelled from the spec wording of the Default Prop Scanner (with the
end offset corrected to what the code computes): each line is treated
independently; a line whose cumulative brace depth before it is zero and
whose text matches the key pattern emits one default definition whose
`start` is the key start and whose `endPos` is `start` plus the length
of the full match (`[ \t]*` indent, key, `\s*`, `=`); other lines emit
nothing. -/
def specDefaultProps (body : List Char) (prototypeName : String)
    (bodyOffset : Nat) : List PropDefinition :=
  let lines := splitRN body
  (List.range lines.length).flatMap (fun i =>
    let line := lines.getD i []
    let lineStart := (lines.take i).foldl (fun a l => a + l.length + 1) 0
    let depth := (lines.take i).foldl (fun d l => d + lineBraceDelta l) (0 : Int)
    match matchDefaultKey line with
    | some (ind, key, mlen) =>
      if depth == 0 then
        [{ prototypeName := prototypeName, propPath := splitDot key,
           start := bodyOffset + lineStart + ind,
           endPos := bodyOffset + lineStart + ind + mlen,
           source := PropSource.default }]
      else []
    | none => [])

theorem flatMap_congr_aux {α β : Type} (f g : α → List β) (l : List α)
    (h : ∀ a ∈ l, f a = g a) : l.flatMap f = l.flatMap g := by
  induction l with
  | nil => rfl
  | cons x xs ih =>
    simp only [List.flatMap_cons]
    rw [h x (List.mem_cons_self x xs), ih (fun a ha => h a (List.mem_cons_of_mem x ha))]

theorem defaultLoop_eq_spec (prototypeName : String) (bodyOffset : Nat) :
    ∀ (lines : List (List Char)) (depth : Int) (cur : Nat),
      defaultLoop prototypeName bodyOffset lines depth cur =
        (List.range lines.length).flatMap (fun i =>
          match matchDefaultKey (lines.getD i []) with
          | some (ind, key, mlen) =>
            if (lines.take i).foldl (fun d l => d + lineBraceDelta l) depth == 0 then
              [{ prototypeName := prototypeName, propPath := splitDot key,
                 start := bodyOffset +
                   ((lines.take i).foldl (fun a l => a + l.length + 1) cur) + ind,
                 endPos := bodyOffset +
                   ((lines.take i).foldl (fun a l => a + l.length + 1) cur) + ind + mlen,
                 source := PropSource.default }]
            else []
          | none => []) := by
  intro lines
  induction lines with
  | nil => intro depth cur; rfl
  | cons l ls ih =>
    intro depth cur
    rw [defaultLoop, ih (depth + lineBraceDelta l) (cur + l.length + 1)]
    rw [List.length_cons, List.range_succ_eq_map, List.flatMap_cons, List.flatMap_map]
    rfl

/-- C7 amended: the Default Prop Scanner emits one default-source
definition per line at cumulative brace depth 0 whose text matches the
identifier-or-dotted-path / numeric-index key followed by `=`, with
`propPath` the key split on `.`, `start` at the matched key text, and
`endPos = start + match[0].length` — i.e. the span runs from the key
start through the `=` sign (not exactly the key text); lines at nonzero
depth emit nothing.  The spec's example yields exactly one entry
`['foo','bar']`, `source = default`, spanning offsets `[15, 25)`. -/
theorem parseDefaultProps_characterization :
    (∀ (body : List Char) (prototypeName : String) (bodyOffset : Nat),
      parseDefaultProps body prototypeName bodyOffset =
        specDefaultProps body prototypeName bodyOffset) ∧
    (parsePropDefinitions exampleDefaultX).props =
      [{ prototypeName := "X", propPath := ["foo", "bar"], start := 15,
         endPos := 25, source := PropSource.default }] := by
  constructor
  · intro body prototypeName bodyOffset
    rw [parseDefaultProps, defaultLoop_eq_spec, specDefaultProps]
  · rfl

/-- The suffix-coexistence source for the merge policy: a default `baz`
next to a styleguide `foo.baz` in the same prototype. -/
def exampleCoexist : List Char :=
  ("prototype(P) \x7b\n  baz = 1\n  @styleguide \x7b\n    props \x7b\n" ++
   "      foo \x7b\n        baz = 1\n      \x7d\n    \x7d\n  \x7d\n\x7d").toList

/-- Per-block styleguide entries (shared shape for the merge-policy
statement). -/
def blockStyleguideProps (source : List Char) (proto : PrototypeBlock) :
    List PropDefinition :=
  let body := (source.take proto.bodyEnd).drop proto.bodyStart
  flattenStyleguideTree (parseStyleguidePropsTree body) proto.name body
    proto.bodyStart

theorem foldl_blockProps (source : List Char) (blocks : List PrototypeBlock) :
    ∀ acc : ParsedPropResult,
      (blocks.foldl
        (fun acc proto =>
          { props := acc.props ++ (blockProps source proto).1,
            warnings := acc.warnings ++ (blockProps source proto).2 })
        acc).props =
      acc.props ++ blocks.flatMap (fun proto => (blockProps source proto).1) := by
  induction blocks with
  | nil => intro acc; simp
  | cons b bs ih =>
    intro acc
    rw [List.foldl_cons, ih, List.flatMap_cons]
    simp [List.append_assoc]

/-- C5: per prototype block, a default-source prop definition survives
the merge exactly when its full dotted path differs from the full dotted
path of every styleguide definition of that block, and the merged result
lists the styleguide entries followed by the surviving default entries
(concatenated in block order).  The second conjunct shows mere suffix
relationship does not suppress: a default `baz` and a styleguide
`foo.baz` coexist as distinct entries. -/
theorem prop_merge_policy (source : List Char) :
    (parsePropDefinitions source).props =
      (parsePrototypeBlocks source).flatMap (fun proto =>
        let body := (source.take proto.bodyEnd).drop proto.bodyStart
        let sg := blockStyleguideProps source proto
        sg ++ (parseDefaultProps body proto.name proto.bodyStart).filter
          (fun d => decide (¬ ∃ s ∈ sg, joinDot s.propPath = joinDot d.propPath))) ∧
    (parsePropDefinitions exampleCoexist).props.map
        (fun p => (p.propPath, p.source)) =
      [(["foo"], PropSource.styleguide),
       (["foo", "baz"], PropSource.styleguide),
       (["baz"], PropSource.default)] := by
  constructor
  · rw [parsePropDefinitions, foldl_blockProps]
    simp only [List.nil_append]
    apply flatMap_congr_aux
    intro proto _
    simp only [blockProps, blockStyleguideProps]
    congr 1
    apply List.filter_congr
    intro d _
    have hcontains :
        ((flattenStyleguideTree
            (parseStyleguidePropsTree ((source.take proto.bodyEnd).drop proto.bodyStart))
            proto.name ((source.take proto.bodyEnd).drop proto.bodyStart)
            proto.bodyStart).map (fun p => joinDot p.propPath)).contains
            (joinDot d.propPath) =
          decide (∃ s ∈ flattenStyleguideTree
            (parseStyleguidePropsTree ((source.take proto.bodyEnd).drop proto.bodyStart))
            proto.name ((source.take proto.bodyEnd).drop proto.bodyStart)
            proto.bodyStart, joinDot s.propPath = joinDot d.propPath) := by
      rw [Bool.eq_iff_iff, decide_eq_true_eq]
      simp only [List.contains_iff_exists_mem_beq, List.mem_map, beq_iff_eq]
      constructor
      · rintro ⟨x, ⟨s, hs, rfl⟩, heq⟩
        exact ⟨s, hs, heq.symm⟩
      · rintro ⟨s, hs, heq⟩
        exact ⟨joinDot s.propPath, ⟨s, hs, rfl⟩, heq.symm⟩
    rw [hcontains, decide_not]
  · rfl

/-- Duplicate-freedom of a list of keys, as a computable check. -/
def listNodup : List String → Bool
  | [] => true
  | x :: xs => !(xs.contains x) && listNodup xs

mutual
/-- Sibling keys are unique at every node of the tree. -/
def SNode.keysOk : SNode → Bool
  | SNode.mk _ cs => listNodup (SChildren.keys cs) && SChildren.allOk cs

/-- All subtrees of a children record satisfy `keysOk`. -/
def SChildren.allOk : SChildren → Bool
  | SChildren.nil => true
  | SChildren.cons _ c rest => SNode.keysOk c && SChildren.allOk rest
end

theorem listNodup_iff (l : List String) : listNodup l = true ↔ l.Nodup := by
  induction l with
  | nil => simp [listNodup]
  | cons x xs ih =>
    simp only [listNodup, Bool.and_eq_true, Bool.not_eq_true', ih,
      List.nodup_cons]
    constructor
    · rintro ⟨hc, hn⟩
      refine ⟨fun hmem => ?_, hn⟩
      have hcon : xs.contains x = true :=
        List.contains_iff_exists_mem_beq.mpr ⟨x, hmem, by simp⟩
      rw [hc] at hcon
      cases hcon
    · rintro ⟨hmem, hn⟩
      refine ⟨?_, hn⟩
      cases hc : xs.contains x
      · rfl
      · obtain ⟨y, hy, hxy⟩ := List.contains_iff_exists_mem_beq.mp hc
        rw [beq_iff_eq] at hxy
        exact absurd (hxy ▸ hy) hmem

theorem keys_append : (cs : SChildren) → (k : String) → (n : SNode) →
    (SChildren.append cs k n).keys = cs.keys ++ [k]
  | SChildren.nil, _, _ => rfl
  | SChildren.cons k' c rest, k, n => by
    simp only [SChildren.append, SChildren.keys, List.cons_append]
    rw [keys_append rest k n]

theorem keys_replace : (cs : SChildren) → (k : String) → (n : SNode) →
    (SChildren.replace cs k n).keys = cs.keys
  | SChildren.nil, _, _ => rfl
  | SChildren.cons k' c rest, k, n => by
    by_cases h : k' == k
    · simp [SChildren.replace, h, SChildren.keys]
    · simp only [SChildren.replace]
      rw [if_neg h, SChildren.keys, SChildren.keys, keys_replace rest k n]

theorem hasKey_iff_mem_keys : (cs : SChildren) → (key : String) →
    (SChildren.hasKey cs key = true ↔ key ∈ cs.keys)
  | SChildren.nil, key => by simp [SChildren.hasKey, SChildren.keys]
  | SChildren.cons k c rest, key => by
    simp only [SChildren.hasKey, SChildren.keys, Bool.or_eq_true, beq_iff_eq,
      List.mem_cons, hasKey_iff_mem_keys rest key]
    exact or_congr eq_comm Iff.rfl

theorem listNodup_append_singleton (l : List String) (x : String)
    (hl : listNodup l = true) (hx : x ∉ l) : listNodup (l ++ [x]) = true := by
  rw [listNodup_iff] at hl ⊢
  rw [List.nodup_append]
  refine ⟨hl, List.nodup_singleton x, ?_⟩
  intro y hy hyx
  simp only [List.mem_singleton] at hyx
  exact hx (hyx ▸ hy)

theorem allOk_append : (cs : SChildren) → (k : String) → (n : SNode) →
    SChildren.allOk cs = true → SNode.keysOk n = true →
    SChildren.allOk (SChildren.append cs k n) = true
  | SChildren.nil, k, n, _, hn => by
    simp [SChildren.append, SChildren.allOk, hn]
  | SChildren.cons k' c rest, k, n, hcs, hn => by
    simp only [SChildren.allOk, Bool.and_eq_true] at hcs
    simp only [SChildren.append, SChildren.allOk, Bool.and_eq_true]
    exact ⟨hcs.1, allOk_append rest k n hcs.2 hn⟩

theorem allOk_replace : (cs : SChildren) → (k : String) → (n : SNode) →
    SChildren.allOk cs = true → SNode.keysOk n = true →
    SChildren.allOk (SChildren.replace cs k n) = true
  | SChildren.nil, _, _, hcs, _ => hcs
  | SChildren.cons k' c rest, k, n, hcs, hn => by
    simp only [SChildren.allOk, Bool.and_eq_true] at hcs
    by_cases h : k' == k
    · simp only [SChildren.replace, h, if_true, SChildren.allOk,
        Bool.and_eq_true]
      exact ⟨hn, hcs.2⟩
    · simp only [SChildren.replace]
      rw [if_neg h]
      simp only [SChildren.allOk, Bool.and_eq_true]
      exact ⟨hcs.1, allOk_replace rest k n hcs.2 hn⟩

theorem allOk_lookup : (cs : SChildren) → (k : String) → (c : SNode) →
    SChildren.allOk cs = true → SChildren.lookup cs k = some c →
    SNode.keysOk c = true
  | SChildren.nil, _, _, _, hl => absurd hl (by simp [SChildren.lookup])
  | SChildren.cons k' c' rest, k, c, hcs, hl => by
    simp only [SChildren.allOk, Bool.and_eq_true] at hcs
    by_cases h : k' == k
    · rw [SChildren.lookup, if_pos h] at hl
      cases hl
      exact hcs.1
    · rw [SChildren.lookup, if_neg h] at hl
      exact allOk_lookup rest k c hcs.2 hl

theorem hasChildAt_nil (pos : Nat × Nat) (cs : SChildren) (key : String) :
    hasChildAt (SNode.mk pos cs) [] key = SChildren.hasKey cs key := rfl

theorem hasChildAt_cons (pos : Nat × Nat) (cs : SChildren) (k : String)
    (ks : List String) (key : String) (c : SNode)
    (hl : SChildren.lookup cs k = some c) :
    hasChildAt (SNode.mk pos cs) (k :: ks) key = hasChildAt c ks key := by
  rw [hasChildAt, hasChildAt, nodeAt]
  have : (SNode.mk pos cs).children = cs := rfl
  rw [this, hl]

theorem keysOk_addChild (path : List String) :
    ∀ (root : SNode) (key : String) (child : SNode),
      SNode.keysOk root = true → hasChildAt root path key = false →
      SNode.keysOk child = true →
      SNode.keysOk (addChild path root key child) = true := by
  induction path with
  | nil =>
    intro root key child hroot hhas hchild
    cases root with
    | mk pos cs =>
      rw [addChild]
      have hpos : (SNode.mk pos cs).position = pos := rfl
      have hch : (SNode.mk pos cs).children = cs := rfl
      rw [hpos, hch]
      simp only [SNode.keysOk, Bool.and_eq_true] at hroot ⊢
      have hkeymem : key ∉ cs.keys := by
        intro hmem
        rw [hasChildAt_nil] at hhas
        rw [(hasKey_iff_mem_keys cs key).mpr hmem] at hhas
        cases hhas
      refine ⟨?_, ?_⟩
      · rw [keys_append]
        exact listNodup_append_singleton _ _ hroot.1 hkeymem
      · exact allOk_append cs key child hroot.2 hchild
  | cons k ks ih =>
    intro root key child hroot hhas hchild
    cases root with
    | mk pos cs =>
      rw [addChild]
      have hch : (SNode.mk pos cs).children = cs := rfl
      rw [hch]
      cases hl : SChildren.lookup cs k with
      | none => exact hroot
      | some c =>
        have hpos : (SNode.mk pos cs).position = pos := rfl
        rw [hpos]
        simp only [SNode.keysOk, Bool.and_eq_true] at hroot ⊢
        refine ⟨?_, ?_⟩
        · rw [keys_replace]
          exact hroot.1
        · apply allOk_replace _ _ _ hroot.2
          apply ih c key child (allOk_lookup cs k c hroot.2 hl) _ hchild
          rw [← hasChildAt_cons pos cs k ks key c hl]
          exact hhas

theorem keysOk_mk_children (p : Nat × Nat) (r : SNode) :
    SNode.keysOk (SNode.mk p r.children) = SNode.keysOk r := by
  cases r
  rfl

theorem ptStep_keysOk (s : PTState) (line : List Char) (n : Nat)
    (h : SNode.keysOk s.root = true) :
    SNode.keysOk (ptStep s line n).root = true := by
  simp only [ptStep]
  split
  · exact h
  · split
    · split
      · rw [keysOk_mk_children]
        exact h
      · exact h
    · split
      · exact h
      · split
        · exact h
        · split
          · exact h
          · split
            · split
              · exact h
              · rename_i path _ indent key _ hfalse
                apply keysOk_addChild
                · exact h
                · exact Bool.not_eq_true _ ▸ hfalse
                · rfl
            · split
              · split
                · exact h
                · rename_i hfalse
                  apply keysOk_addChild
                  · exact h
                  · exact Bool.not_eq_true _ ▸ hfalse
                  · rfl
              · exact h

theorem parseLines_keysOk : (lines : List (List Char)) → ∀ (idx : Nat) (s : PTState),
    SNode.keysOk s.root = true → SNode.keysOk (parseLines lines idx s).root = true
  | [], _, _, h => h
  | line :: rest, idx, s, h =>
    parseLines_keysOk rest (idx + 1) (ptStep s line (idx + 1))
      (ptStep_keysOk s line (idx + 1) h)

theorem ptStep_keyEvent (s : PTState) (line : List Char) (lineNumber : Nat)
    (path : List String) (indent : Nat) (key : List Char)
    (hsg : s.inStyleguide = true) (hp : s.inProps = true)
    (hpath : s.curPath = some path)
    (hclose : (eelUpdate line s.eelDepth == 0 && isCloseLine line) = false)
    (hdir : isDirectiveLine line = false)
    (hkey : matchOpen line = some (indent, key) ∨
      (matchOpen line = none ∧ matchLeaf line = some (indent, key))) :
    (hasChildAt s.root path (String.mk key) = true →
      (ptStep s line lineNumber).root = s.root ∧
      (ptStep s line lineNumber).curPath = s.curPath ∧
      (ptStep s line lineNumber).warnings = s.warnings ++
        [{ message := dupMsg (String.mk key), line := lineNumber,
           column := indent + 1 }]) ∧
    (hasChildAt s.root path (String.mk key) = false →
      (ptStep s line lineNumber).warnings = s.warnings ∧
      (ptStep s line lineNumber).root =
        addChild path s.root (String.mk key)
          (SNode.mk (lineNumber, indent + 1) SChildren.nil)) := by
  rcases hkey with hopen | ⟨hopen, hleaf⟩
  · have hred : ptStep s line lineNumber =
        (if hasChildAt s.root path (String.mk key) then
          { s with
            eelDepth := eelUpdate line s.eelDepth,
            warnings :=
              s.warnings ++
                [{ message := dupMsg (String.mk key), line := lineNumber,
                   column := indent + 1 }] }
         else
          { s with
            eelDepth := eelUpdate line s.eelDepth,
            root :=
              addChild path s.root (String.mk key)
                (SNode.mk (lineNumber, indent + 1) SChildren.nil),
            curPath := some (path ++ [String.mk key]) }) := by
      simp [ptStep, hsg, hp, hpath, hclose, hdir, hopen]
    constructor
    · intro hdup
      rw [hred, if_pos hdup]
      exact ⟨rfl, rfl, rfl⟩
    · intro hfresh
      rw [hred, if_neg (by rw [hfresh]; exact Bool.false_ne_true)]
      exact ⟨rfl, rfl⟩
  · have hred : ptStep s line lineNumber =
        (if hasChildAt s.root path (String.mk key) then
          { s with
            eelDepth := eelUpdate line s.eelDepth,
            warnings :=
              s.warnings ++
                [{ message := dupMsg (String.mk key), line := lineNumber,
                   column := indent + 1 }] }
         else
          { s with
            eelDepth := eelUpdate line s.eelDepth,
            root :=
              addChild path s.root (String.mk key)
                (SNode.mk (lineNumber, indent + 1) SChildren.nil) }) := by
      simp [ptStep, hsg, hp, hpath, hclose, hdir, hopen, hleaf]
    constructor
    · intro hdup
      rw [hred, if_pos hdup]
      exact ⟨rfl, rfl, rfl⟩
    · intro hfresh
      rw [hred, if_neg (by rw [hfresh]; exact Bool.false_ne_true)]
      exact ⟨rfl, rfl⟩

/-- C4: within the parsed styleguide props tree sibling keys are unique
(`keysOk` holds of every parse result), and at any parser step that
classifies a line as a key declaration (open-block or leaf) for the
current node: if the key is already a child there, the tree and the
stack are left untouched (the first occurrence survives, nothing is
created or replaced) and exactly one warning is appended whose line and
column are the position of this later, duplicate occurrence; if the key
is fresh, no warning is appended and exactly that child is added.
Hence N occurrences of one key at a level yield N−1 warnings. -/
theorem styleguide_duplicate_keys :
    (∀ source : List Char,
      SNode.keysOk (parseStyleguidePropsTree source).props = true) ∧
    (∀ (s : PTState) (line : List Char) (lineNumber : Nat)
        (path : List String) (indent : Nat) (key : List Char),
      s.inStyleguide = true → s.inProps = true → s.curPath = some path →
      (eelUpdate line s.eelDepth == 0 && isCloseLine line) = false →
      isDirectiveLine line = false →
      (matchOpen line = some (indent, key) ∨
        (matchOpen line = none ∧ matchLeaf line = some (indent, key))) →
      (hasChildAt s.root path (String.mk key) = true →
        (ptStep s line lineNumber).root = s.root ∧
        (ptStep s line lineNumber).curPath = s.curPath ∧
        (ptStep s line lineNumber).warnings = s.warnings ++
          [{ message := dupMsg (String.mk key), line := lineNumber,
             column := indent + 1 }]) ∧
      (hasChildAt s.root path (String.mk key) = false →
        (ptStep s line lineNumber).warnings = s.warnings ∧
        (ptStep s line lineNumber).root =
          addChild path s.root (String.mk key)
            (SNode.mk (lineNumber, indent + 1) SChildren.nil))) :=
  ⟨fun _ => parseLines_keysOk _ 0 initPT rfl,
   fun s line lineNumber path indent key hsg hp hpath hclose hdir hkey =>
     ptStep_keyEvent s line lineNumber path indent key hsg hp hpath hclose
       hdir hkey⟩

/-- Parser state with one child `a` below the props root (right before a
duplicate `a {` line). -/
def exampleDupState : PTState :=
  { inStyleguide := true, inProps := true,
    root := SNode.mk (3, 5)
      (SChildren.cons "a" (SNode.mk (4, 7) SChildren.nil) SChildren.nil),
    curPath := some [], eelDepth := 0, warnings := [] }

/-- A duplicate `a {` line, indented by six spaces. -/
def exampleDupLine : List Char := "      a \x7b".toList

/-- C4 witness: stepping the concrete duplicate `a {` line leaves the
tree and stack untouched and appends exactly the one warning positioned
at this later occurrence (line 7, column 7). -/
theorem styleguide_duplicate_keys_witness :
    (exampleDupState.inStyleguide = true ∧ exampleDupState.inProps = true ∧
      exampleDupState.curPath = some [] ∧
      (eelUpdate exampleDupLine exampleDupState.eelDepth == 0 &&
        isCloseLine exampleDupLine) = false ∧
      isDirectiveLine exampleDupLine = false ∧
      matchOpen exampleDupLine = some (6, ['a']) ∧
      hasChildAt exampleDupState.root [] (String.mk ['a']) = true) ∧
    ((ptStep exampleDupState exampleDupLine 7).root = exampleDupState.root ∧
      (ptStep exampleDupState exampleDupLine 7).curPath =
        exampleDupState.curPath ∧
      (ptStep exampleDupState exampleDupLine 7).warnings =
        exampleDupState.warnings ++
          [{ message := dupMsg (String.mk ['a']), line := 7, column := 7 }]) := by
  refine ⟨⟨rfl, rfl, rfl, by decide, by decide, by decide, by decide⟩, ?_⟩
  exact (styleguide_duplicate_keys.2 exampleDupState exampleDupLine 7 [] 6 ['a']
    rfl rfl rfl (by decide) (by decide) (Or.inl (by decide))).1 (by decide)

theorem mapGet_mapSet_self {α : Type} (m : List (String × α)) (k : String)
    (v : α) : mapGet (mapSet m k v) k = some v := by
  unfold mapSet
  by_cases hany : m.any (fun kv => kv.1 == k)
  · rw [if_pos hany]
    induction m with
    | nil => cases hany
    | cons kv rest ih =>
      by_cases hk : kv.1 == k
      · simp only [List.map_cons, hk, if_true]
        unfold mapGet
        rw [List.find?_cons_of_pos _ (by simp)]
        rfl
      · simp only [List.map_cons, hk, Bool.false_eq_true, if_false]
        unfold mapGet
        rw [List.find?_cons_of_neg _ (by simpa using hk)]
        have hany2 : rest.any (fun kv => kv.1 == k) = true := by
          rcases List.any_eq_true.mp hany with ⟨x, hx, hpx⟩
          rcases List.mem_cons.mp hx with rfl | hx2
          · exact absurd hpx (by simpa using hk)
          · exact List.any_eq_true.mpr ⟨x, hx2, hpx⟩
        exact ih hany2
  · rw [if_neg hany]
    unfold mapGet
    rw [List.find?_append]
    have hnone : m.find? (fun kv => kv.1 == k) = none := by
      rw [List.find?_eq_none]
      intro kv hkv hbeq
      exact hany (List.any_eq_true.mpr ⟨kv, hkv, hbeq⟩)
    rw [hnone]
    simp [List.find?]

theorem mapGet_mapSet_ne {α : Type} (m : List (String × α)) (k k' : String)
    (v : α) (h : k' ≠ k) : mapGet (mapSet m k v) k' = mapGet m k' := by
  unfold mapSet
  by_cases hany : m.any (fun kv => kv.1 == k)
  · rw [if_pos hany]
    clear hany
    induction m with
    | nil => rfl
    | cons kv rest ih =>
      by_cases hk : kv.1 == k
      · have hkeq : kv.1 = k := by simpa using hk
        have hne1 : ¬ (((k, v) : String × α).1 == k') = true := by
          simp only [beq_iff_eq]
          exact fun hc => h hc.symm
        have hne2 : ¬ (kv.1 == k') = true := by
          simp only [beq_iff_eq, hkeq]
          exact fun hc => h hc.symm
        simp only [List.map_cons, hk, if_true]
        unfold mapGet
        rw [@List.find?_cons_of_neg _ (fun kv => kv.1 == k') (k, v) _ hne1,
          @List.find?_cons_of_neg _ (fun kv => kv.1 == k') kv _ hne2]
        exact ih
      · have hkf : (kv.1 == k) = false := by
          cases hb : kv.1 == k
          · rfl
          · exact absurd hb hk
        simp only [List.map_cons, hkf, Bool.false_eq_true, if_false]
        by_cases hk' : kv.1 == k'
        · unfold mapGet
          rw [@List.find?_cons_of_pos _ (fun kv => kv.1 == k') kv _ hk',
            @List.find?_cons_of_pos _ (fun kv => kv.1 == k') kv _ hk']
        · unfold mapGet
          rw [@List.find?_cons_of_neg _ (fun kv => kv.1 == k') kv _ hk',
            @List.find?_cons_of_neg _ (fun kv => kv.1 == k') kv _ hk']
          exact ih
  · rw [if_neg hany]
    unfold mapGet
    rw [List.find?_append]
    have hnone : List.find? (fun kv => kv.1 == k') [(k, v)] = none := by
      rw [List.find?_eq_none]
      intro kv hkv hbeq
      simp only [List.mem_singleton] at hkv
      subst hkv
      have hke : k = k' := by simpa using hbeq
      exact h hke.symm
    rw [hnone]
    cases List.find? (fun kv => kv.1 == k') m <;> rfl

/-- `PropIndex.indexPrototype`: filter to the prototype, attach the
owning uri, append to the existing list. -/
def PropIndex.indexPrototype (idx : PropIndexState) (prototypeName : String)
    (definitions : List PropDefinition) (uri : String) : PropIndexState :=
  let newProps : List IndexedProp :=
    (definitions.filter (fun d => d.prototypeName == prototypeName)).map
      (fun d =>
        { prototypeName := d.prototypeName, propPath := d.propPath,
          start := d.start, endPos := d.endPos, source := d.source,
          uri := uri })
  let existing := (mapGet idx prototypeName).getD []
  mapSet idx prototypeName (existing ++ newProps)

/-- `PropIndex.removeByUri`: filter every prototype's list by owner,
dropping the prototype key entirely when the list becomes empty. -/
def PropIndex.removeByUri (idx : PropIndexState) (uriKey : String) :
    PropIndexState :=
  (idx.map (fun kv => (kv.1, kv.2.filter (fun p => !(p.uri == uriKey))))).filter
    (fun kv => !kv.2.isEmpty)

/-- A `vscode.Diagnostic` as used here: a range of two `(line, char)`
positions and a message (severity is always Warning). -/
structure Diagnostic where
  rangeStart : Nat × Nat
  rangeEnd : Nat × Nat
  message : String
deriving DecidableEq, Repr

/-- The regex `/"([^"]+)"/`: first non-empty double-quoted run. -/
def firstQuoted : List Char → Option (List Char)
  | [] => none
  | '"' :: rest =>
    let t := rest.takeWhile (fun c => !(c == '"'))
    if t.isEmpty then firstQuoted rest
    else
      match rest.drop t.length with
      | '"' :: _ => some t
      | _ => firstQuoted rest
  | _ :: rest => firstQuoted rest

/-- Stable insertion preserving the order of equal `start`s (models the
stable `Array.prototype.sort` with comparator `a.start - b.start`). -/
def insertByStart (d : PropDefinition) : List PropDefinition → List PropDefinition
  | [] => [d]
  | x :: xs => if d.start < x.start then d :: x :: xs else x :: insertByStart d xs

/-- `matches.sort((a, b) => a.start - b.start)`. -/
def sortByStart (l : List PropDefinition) : List PropDefinition :=
  l.foldr insertByStart []

/-- The warning-to-diagnostic mapping of `indexFusionFile`: locate, among
prop definitions whose last path segment equals the warned key, the one
with the greatest start offset (the duplicate), falling back to the
warning's raw position as a one-character range. -/
def computeDiagnostics (docText : List Char)
    (propDefinitions : List PropDefinition)
    (warnings : List StyleguideWarning) : List Diagnostic :=
  warnings.map (fun w =>
    let warnedKey := firstQuoted w.message.toList
    let matchingDef :=
      match warnedKey with
      | some keyChars =>
        let cands := sortByStart (propDefinitions.filter
          (fun d => d.propPath.getLast? == some (String.mk keyChars)))
        if cands.length > 1 then cands.getLast? else cands.head?
      | none => none
    match matchingDef with
    | some d =>
      { rangeStart := offsetToPosition docText d.start,
        rangeEnd := offsetToPosition docText d.endPos, message := w.message }
    | none =>
      { rangeStart := (w.line - 1, w.column - 1),
        rangeEnd := (w.line - 1, w.column), message := w.message })

/-- The `byPrototype` grouping map built inside `indexFusionFile`. -/
def groupByProto (defs : List PropDefinition) :
    List (String × List PropDefinition) :=
  defs.foldl
    (fun m d =>
      mapSet m d.prototypeName ((mapGet m d.prototypeName).getD [] ++ [d])) []

/-- State of `WorkspaceIndex` (the tracked-file list is not modelled; no
claim touches it). -/
structure WorkspaceState where
  protoIdx : PrototypeIndexState
  propIdx : PropIndexState
  filePrototypeMap : List (String × List String)
  filePropMap : List (String × List PropDefinition)
  diagnostics : List (String × List Diagnostic)

/-- The empty workspace. -/
def emptyWorkspace : WorkspaceState :=
  { protoIdx := { prototypes := [], filePrototypes := [] }, propIdx := [],
    filePrototypeMap := [], filePropMap := [], diagnostics := [] }

/-- `WorkspaceIndex.indexFusionFile` (the live-edit capable version):
`source` is the text being indexed (`sourceOverride` or the document
text), `docText` the opened document used for diagnostic positions,
`live` the live-edit flag.  Returns the success flag and the new
state. -/
def indexFusionFile (st : WorkspaceState) (uriKey : String)
    (source docText : List Char) (live : Bool) : Bool × WorkspaceState :=
  let st1 :=
    if st.filePrototypeMap.any (fun kv => kv.1 == uriKey) then
      { st with
        protoIdx := PrototypeIndex.removeByUri st.protoIdx uriKey,
        filePrototypeMap := mapDelete st.filePrototypeMap uriKey }
    else st
  let st2 :=
    { st1 with protoIdx := PrototypeIndex.indexDocument st1.protoIdx uriKey source }
  let prototypes := PrototypeIndex.getPrototypesFromDocument st2.protoIdx uriKey
  let st3 := { st2 with filePrototypeMap := mapSet st2.filePrototypeMap uriKey prototypes }
  let parsed := parsePropDefinitions source
  if live && parsed.props.isEmpty then (false, st3)
  else
    let st4 :=
      if st3.filePropMap.any (fun kv => kv.1 == uriKey) then
        { st3 with
          propIdx := PropIndex.removeByUri st3.propIdx uriKey,
          filePropMap := mapDelete st3.filePropMap uriKey,
          diagnostics := mapDelete st3.diagnostics uriKey }
      else st3
    let st5 :=
      { st4 with
        diagnostics := mapSet st4.diagnostics uriKey
          (computeDiagnostics docText parsed.props parsed.warnings) }
    let grouped := groupByProto parsed.props
    let st6 :=
      { st5 with
        propIdx := grouped.foldl
          (fun (idx : PropIndexState) (kv : String × List PropDefinition) =>
            PropIndex.indexPrototype idx kv.1 kv.2 uriKey)
          st5.propIdx }
    let st7 :=
      { st6 with
        filePropMap := mapSet st6.filePropMap uriKey
          (grouped.flatMap (fun kv => kv.2)) }
    (true, st7)

theorem mapGet_none_of_any_false {α : Type} (m : List (String × α))
    (k : String) (h : m.any (fun kv => kv.1 == k) = false) :
    mapGet m k = none := by
  unfold mapGet
  rw [List.find?_eq_none.mpr]
  · rfl
  · intro kv hkv hbeq
    have : m.any (fun kv => kv.1 == k) = true :=
      List.any_eq_true.mpr ⟨kv, hkv, hbeq⟩
    rw [h] at this
    cases this

theorem mapGet_isSome_of_any_true {α : Type} (m : List (String × α))
    (k : String) (h : m.any (fun kv => kv.1 == k) = true) :
    ∃ v, mapGet m k = some v := by
  have hsome : (m.find? (fun kv => kv.1 == k)).isSome = true :=
    List.find?_isSome.mpr (List.any_eq_true.mp h)
  cases hfind : m.find? (fun kv => kv.1 == k) with
  | none => rw [hfind] at hsome; cases hsome
  | some kv => exact ⟨kv.2, by unfold mapGet; rw [hfind]; rfl⟩

theorem mapGet_foldl_protoSet_not_mem
    (f : PrototypeDeclaration → IndexedPrototype) :
    ∀ (decls : List PrototypeDeclaration)
      (m : List (String × IndexedPrototype)) (n : String),
      n ∉ decls.map (fun d => d.name) →
      mapGet (decls.foldl (fun acc d => mapSet acc d.name (f d)) m) n =
        mapGet m n := by
  intro decls
  induction decls with
  | nil => intro m n _; rfl
  | cons d ds ih =>
    intro m n hn
    simp only [List.map_cons, List.mem_cons, not_or] at hn
    rw [List.foldl_cons, ih _ n (by simpa using hn.2),
      mapGet_mapSet_ne _ _ _ _ hn.1]

theorem mapGet_foldl_protoSet_mem (uriKey : String)
    (f : PrototypeDeclaration → IndexedPrototype)
    (hf : ∀ d, (f d).uri = uriKey) :
    ∀ (decls : List PrototypeDeclaration)
      (m : List (String × IndexedPrototype)) (n : String),
      n ∈ decls.map (fun d => d.name) →
      ∃ e, mapGet (decls.foldl (fun acc d => mapSet acc d.name (f d)) m) n =
        some e ∧ e.uri = uriKey := by
  intro decls
  induction decls with
  | nil => intro m n hn; cases hn
  | cons d ds ih =>
    intro m n hn
    rw [List.foldl_cons]
    by_cases hmem : n ∈ ds.map (fun d => d.name)
    · exact ih _ n hmem
    · have hnd : n = d.name := by
        rcases List.mem_cons.mp hn with h | h
        · exact h
        · exact absurd h hmem
      subst hnd
      rw [mapGet_foldl_protoSet_not_mem f ds _ _ hmem, mapGet_mapSet_self]
      exact ⟨f d, rfl, hf d⟩

theorem getPrototypesFromDocument_indexDocument (pst : PrototypeIndexState)
    (uriKey : String) (source : List Char) :
    PrototypeIndex.getPrototypesFromDocument
      (PrototypeIndex.indexDocument pst uriKey source) uriKey =
      (parsePrototypes source).map (fun d => d.name) := by
  unfold PrototypeIndex.getPrototypesFromDocument PrototypeIndex.indexDocument
  simp only [mapGet_mapSet_self, Option.getD_some]

theorem indexFusionFile_live_abort (st : WorkspaceState) (uriKey : String)
    (source docText : List Char)
    (hzero : (parsePropDefinitions source).props = []) :
    indexFusionFile st uriKey source docText true =
      (false,
        { st with
          protoIdx := PrototypeIndex.indexDocument
            (if st.filePrototypeMap.any (fun kv => kv.1 == uriKey) then
              PrototypeIndex.removeByUri st.protoIdx uriKey
            else st.protoIdx) uriKey source,
          filePrototypeMap := mapSet
            (if st.filePrototypeMap.any (fun kv => kv.1 == uriKey) then
              mapDelete st.filePrototypeMap uriKey
            else st.filePrototypeMap) uriKey
            (PrototypeIndex.getPrototypesFromDocument
              (PrototypeIndex.indexDocument
                (if st.filePrototypeMap.any (fun kv => kv.1 == uriKey) then
                  PrototypeIndex.removeByUri st.protoIdx uriKey
                else st.protoIdx) uriKey source) uriKey) }) := by
  by_cases hany : st.filePrototypeMap.any (fun kv => kv.1 == uriKey)
  · simp [indexFusionFile, hzero, hany]
  · simp [indexFusionFile, hzero, hany]

/-- C3: a per-file indexing call with the live-edit flag set whose parse
of the current source produces zero prop definitions returns failure and
leaves the Prop Index, the file's stored diagnostics (and the per-file
prop map) exactly as they were, while the Prototype Index is still
updated unconditionally: the file's recorded prior names are removed
from the global map (unless re-declared) and the current source's
declarations are inserted under this file.  The `hagree` hypothesis is
the orchestrator invariant that its per-file name record mirrors the
Prototype Index's own. -/
theorem liveEdit_guard (st : WorkspaceState) (uriKey : String)
    (source docText : List Char)
    (hzero : (parsePropDefinitions source).props = [])
    (hagree : mapGet st.filePrototypeMap uriKey =
      mapGet st.protoIdx.filePrototypes uriKey) :
    (indexFusionFile st uriKey source docText true).1 = false ∧
    (indexFusionFile st uriKey source docText true).2.propIdx = st.propIdx ∧
    (indexFusionFile st uriKey source docText true).2.diagnostics =
      st.diagnostics ∧
    (indexFusionFile st uriKey source docText true).2.filePropMap =
      st.filePropMap ∧
    PrototypeIndex.getPrototypesFromDocument
      (indexFusionFile st uriKey source docText true).2.protoIdx uriKey =
      (parsePrototypes source).map (fun d => d.name) ∧
    (∀ n, n ∈ PrototypeIndex.getPrototypesFromDocument st.protoIdx uriKey →
      n ∉ (parsePrototypes source).map (fun d => d.name) →
      PrototypeIndex.get
        (indexFusionFile st uriKey source docText true).2.protoIdx n = none) ∧
    (∀ n, n ∈ (parsePrototypes source).map (fun d => d.name) →
      ∃ e, PrototypeIndex.get
        (indexFusionFile st uriKey source docText true).2.protoIdx n = some e ∧
        e.uri = uriKey) := by
  rw [indexFusionFile_live_abort st uriKey source docText hzero]
  refine ⟨rfl, rfl, rfl, rfl, ?_, ?_, ?_⟩
  · exact getPrototypesFromDocument_indexDocument _ uriKey source
  · intro n hold hnot
    unfold PrototypeIndex.get PrototypeIndex.indexDocument
    simp only
    rw [mapGet_foldl_protoSet_not_mem _ _ _ _ (by simpa using hnot)]
    by_cases hany : st.filePrototypeMap.any (fun kv => kv.1 == uriKey)
    · rw [if_pos hany]
      obtain ⟨names0, hn0⟩ := mapGet_isSome_of_any_true _ _ hany
      have hp0 : mapGet st.protoIdx.filePrototypes uriKey = some names0 :=
        hagree ▸ hn0
      have hmem0 : n ∈ names0 := by
        unfold PrototypeIndex.getPrototypesFromDocument at hold
        rw [hp0] at hold
        simpa using hold
      unfold PrototypeIndex.removeByUri
      rw [hp0]
      simp only
      rw [mapGet_foldl_mapDelete, if_pos hmem0]
    · rw [if_neg hany]
      have hnone : mapGet st.protoIdx.filePrototypes uriKey = none := by
        rw [← hagree]
        cases hb : st.filePrototypeMap.any (fun kv => kv.1 == uriKey)
        · exact mapGet_none_of_any_false _ _ hb
        · exact absurd hb hany
      unfold PrototypeIndex.getPrototypesFromDocument at hold
      rw [hnone] at hold
      cases hold
  · intro n hnew
    unfold PrototypeIndex.get PrototypeIndex.indexDocument
    simp only
    exact mapGet_foldl_protoSet_mem uriKey _ (fun d => rfl) _ _ n hnew

/-- A well-formed source whose indexing establishes the prior state. -/
def liveGoodSrc : List Char := "prototype(Foo) \x7b\n  a = 1\n\x7d".toList

/-- A transiently broken source: one prototype declaration, no body, so
the prop pipeline yields zero definitions. -/
def liveBrokenSrc : List Char := "prototype(Foo)".toList

/-- The workspace state after successfully indexing the good source. -/
def liveSt : WorkspaceState :=
  (indexFusionFile emptyWorkspace "file:///a.fusion" liveGoodSrc liveGoodSrc
    false).2

/-- C3 witness: re-indexing the broken source with the live-edit flag on
the populated workspace satisfies both hypotheses, reports failure, and
leaves the Prop Index untouched. -/
theorem liveEdit_guard_witness :
    ((parsePropDefinitions liveBrokenSrc).props = [] ∧
      mapGet liveSt.filePrototypeMap "file:///a.fusion" =
        mapGet liveSt.protoIdx.filePrototypes "file:///a.fusion") ∧
    (indexFusionFile liveSt "file:///a.fusion" liveBrokenSrc liveBrokenSrc
      true).1 = false ∧
    (indexFusionFile liveSt "file:///a.fusion" liveBrokenSrc liveBrokenSrc
      true).2.propIdx = liveSt.propIdx := by
  refine ⟨⟨by decide, by decide⟩, ?_, ?_⟩
  · exact (liveEdit_guard liveSt "file:///a.fusion" liveBrokenSrc
      liveBrokenSrc (by decide) (by decide)).1
  · exact (liveEdit_guard liveSt "file:///a.fusion" liveBrokenSrc
      liveBrokenSrc (by decide) (by decide)).2.1
